import Mathlib

set_option maxRecDepth 8000

/-!
Shallow embedding of `nemo/export/trt_llm/nemo_utils.py`: the checkpoint
resharding algorithm (`model_to_trtllm_ckpt` and its `split` helper) and the
independent utilities `to_word_list_format` and `prompt_convert`.

Python strings are Lean `String`s; the Python string operations used by the
source (`endswith`, `replace`, `split`, substring `in`, `int`) are modelled by
structural recursion over `String.data` so that concrete runs evaluate inside
the kernel.  Python dicts are insertion-ordered association lists.  Numpy /
torch tensors are nested integer lists (`NpArr`).  Fallible Python code
(`KeyError`, `IndexError`, `ValueError`, shape errors) is modelled with
`Option`.
-/

/- ### Python string primitives -/

/-- Python `s.endswith(t)`. -/
def pyEndsWith (s t : String) : Bool :=
  t.data.isSuffixOf s.data

/-- Helper for `pyReplace`: replace all non-overlapping occurrences of `pat`
(left to right) by `repl`; `fuel` bounds the recursion and is instantiated
with the string length. -/
def replaceAllAux (pat repl : List Char) : Nat → List Char → List Char
  | 0, s => s
  | _ + 1, [] => []
  | fuel + 1, c :: rest =>
    if !pat.isEmpty && pat.isPrefixOf (c :: rest) then
      repl ++ replaceAllAux pat repl fuel ((c :: rest).drop pat.length)
    else
      c :: replaceAllAux pat repl fuel rest

/-- Python `s.replace(pat, repl)` (all non-overlapping occurrences, left to
right; the source never calls it with an empty pattern). -/
def pyReplace (s pat repl : String) : String :=
  ⟨replaceAllAux pat.data repl.data s.data.length s.data⟩

/-- Helper for `pyContains`. -/
def containsSubAux (pat : List Char) : List Char → Bool
  | [] => pat.isEmpty
  | c :: rest => pat.isPrefixOf (c :: rest) || containsSubAux pat rest

/-- Python substring test `pat in s`. -/
def pyContains (s pat : String) : Bool :=
  containsSubAux pat.data s.data

/-- Helper for `pySplitChar`. -/
def splitOnCharAux (sep : Char) : List Char → List Char → List String
  | [], acc => [⟨acc.reverse⟩]
  | c :: rest, acc =>
    if c == sep then ⟨acc.reverse⟩ :: splitOnCharAux sep rest []
    else splitOnCharAux sep rest (c :: acc)

/-- Python `s.split(sep)` for a one-character separator (the source splits on
`"."` and, in the word-list encoder, on `","`). -/
def pySplitChar (s : String) (sep : Char) : List String :=
  splitOnCharAux sep s.data []

/-- Decimal digit value of a character, if it is a digit. -/
def digitVal (c : Char) : Option Nat :=
  if '0' ≤ c ∧ c ≤ '9' then some (c.toNat - '0'.toNat) else none

/-- Helper for `pyToNat`. -/
def pyToNatAux : List Char → Nat → Option Nat
  | [], acc => some acc
  | c :: rest, acc =>
    match digitVal c with
    | none => none
    | some d => pyToNatAux rest (acc * 10 + d)

/-- Python `int(s)` on the canonical decimal strings that appear as layer
indices in weight keys (`none` models the `ValueError` raised on anything
non-numeric). -/
def pyToNat (s : String) : Option Nat :=
  if s.data.isEmpty then none else pyToNatAux s.data 0

/- ### Python dicts as insertion-ordered association lists -/

/-- A Python dict with string keys: insertion-ordered association list with
unique keys. -/
abbrev PyDict (T : Type) := List (String × T)

/-- Python `k in d`. -/
def containsKey {T : Type} (m : PyDict T) (k : String) : Bool :=
  m.any (fun p => p.1 == k)

/-- Python `d[k] = v`: overwrite in place when the key is present, otherwise
append (dicts preserve insertion order). -/
def dinsert {T : Type} (m : PyDict T) (k : String) (v : T) : PyDict T :=
  if containsKey m k then m.map (fun p => if p.1 == k then (k, v) else p)
  else m ++ [(k, v)]

/-- Python `d.get(k)` / `d[k]` (the latter with `none` modelling `KeyError`). -/
def dget {T : Type} (m : PyDict T) (k : String) : Option T :=
  match m.find? (fun p => p.1 == k) with
  | none => none
  | some p => some p.2

/- ### Tensors -/

/-- Numpy/torch tensors over integer entries: a 1-D tensor is a `vec`, an
(n+1)-D tensor is the list of its axis-0 slices. -/
inductive NpArr where
  | vec : List Int → NpArr
  | nd : List NpArr → NpArr

/-- Weight mapping: Python dict from parameter names to tensors. -/
abbrev WMap := PyDict NpArr

/- ### The target-rank mapping (external `tensorrt_llm.Mapping`) -/

/-- Modelled from the spec: `tensorrt_llm.Mapping` is an external library.
Per spec section 3 it is a pure function of `(world_size, rank, tp_size,
pp_size)`; the tensor-parallel rank of target rank `rank`. -/
def tp_rank_of (rank tp_size : Nat) : Nat := rank % tp_size

/-- Modelled from the spec: the pipeline-parallel rank of target rank `rank`
(ranks with the same `rank // tp_size` form one pipeline stage). -/
def pp_rank_of (rank tp_size : Nat) : Nat := rank / tp_size

/-- Modelled from the spec: `Mapping.pp_layers(num_layers)` yields a
contiguous range of global layer indices; the ranges partition
`[0, num_layers)` contiguously and disjointly across pp ranks.  Start of the
range owned by `rank`. -/
def layers_start (rank tp_size pp_size num_layers : Nat) : Nat :=
  pp_rank_of rank tp_size * (num_layers / pp_size)

/-- Modelled from the spec: end (exclusive) of the layer range owned by
`rank`; see `layers_start`. -/
def layers_stop (rank tp_size pp_size num_layers : Nat) : Nat :=
  (pp_rank_of rank tp_size + 1) * (num_layers / pp_size)

/-- Modelled from the spec: `Mapping.is_first_pp_rank()`. -/
def is_first_pp_rank (rank tp_size : Nat) : Bool :=
  pp_rank_of rank tp_size == 0

/-- Modelled from the spec: `Mapping.is_last_pp_rank()`. -/
def is_last_pp_rank (rank tp_size pp_size : Nat) : Bool :=
  pp_rank_of rank tp_size == pp_size - 1

/- ### Per-key rewriting of the rank loop (source lines 261-274) -/

/-- The `pp_key` set of `model_to_trtllm_ckpt`: keys dropped from the
per-layer pass and reattached conditionally by the first/last-rank logic. -/
def pp_key : List String :=
  ["transformer.vocab_embedding.weight",
   "transformer.position_embedding.weight",
   "lm_head.weight",
   "transformer.ln_f.weight",
   "transformer.ln_f.bias"]

/-- Tensor-parallel-suffix step of the per-key rewriting: if the key ends in
`".bin"` and in `"{tp_rank}.bin"`, delete every occurrence of
`".{tp_rank}.bin"`. -/
def tpStep (t : Nat) (k : String) : String :=
  if pyEndsWith k ".bin" then
    if pyEndsWith k (toString t ++ ".bin") then
      pyReplace k ("." ++ toString t ++ ".bin") ""
    else k
  else k

/-- Layer-index step of the per-key rewriting: when `"layers"` occurs in the
key, parse the third dot-component as the global layer index and, when it
lies in the rank's layer range, rewrite it to the rank-local index.  Python
raises (here: `none`) when the component is missing or non-numeric. -/
def layerStep (start stop : Nat) (k : String) : Option String :=
  if pyContains k "layers" then
    match (pySplitChar k '.')[2]? with
    | none => none
    | some comp =>
      match pyToNat comp with
      | none => none
      | some n =>
        some (if start ≤ n && n < stop then
                pyReplace k ("layers." ++ toString n) ("layers." ++ toString (n - start))
              else k)
  else some k

/-- Falcon new-decoder-architecture step of the per-key rewriting: rename
`post_layernorm` to `mlp_layernorm` when the flag is set. -/
def falconStep (nda : Bool) (k : String) : String :=
  if nda && pyContains k "post_layernorm" then
    pyReplace k "post_layernorm" "mlp_layernorm"
  else k

/-- The complete per-key rewriting applied by the per-layer pass of the rank
loop to every source key not in `pp_key`. -/
def transformKey (t start stop : Nat) (nda : Bool) (k : String) : Option String :=
  (layerStep start stop (tpStep t k)).map (falconStep nda)

/-- The per-layer pass of the rank loop: iterate the source mapping in
insertion order, skip `pp_key` keys, rewrite every other key and insert the
(unchanged) tensor under the rewritten key into the per-rank dict. -/
def layerPass (t start stop : Nat) (nda : Bool) (acc : WMap) : WMap → Option WMap
  | [] => some acc
  | (k, v) :: rest =>
    if pp_key.contains k then layerPass t start stop nda acc rest
    else
      match transformKey t start stop nda k with
      | none => none
      | some k2 => layerPass t start stop nda (dinsert acc k2 v) rest

/- ### Numpy split / concatenate / pad -/

/-- Apply a fallible function to every element, failing if any call fails
(models a Python loop that may raise). -/
def optMapAll {A B : Type} (f : A → Option B) : List A → Option (List B)
  | [] => some []
  | x :: rest =>
    match f x with
    | none => none
    | some y =>
      match optMapAll f rest with
      | none => none
      | some ys => some (y :: ys)

/-- Cut a list into `n` consecutive chunks of `s` elements each. -/
def chunksExact {A : Type} : Nat → Nat → List A → List (List A)
  | 0, _, _ => []
  | n + 1, s, l => l.take s :: chunksExact n s (l.drop s)

/-- Split a list into `n` equal consecutive chunks; `none` models the numpy
error when `n` does not evenly divide the length (or is zero). -/
def chunkList {A : Type} (l : List A) (n : Nat) : Option (List (List A)) :=
  if n = 0 then none
  else if n * (l.length / n) = l.length then some (chunksExact n (l.length / n) l)
  else none

/-- Numpy `np.split(v, n, axis=d)`: the full list of `n` equal sections along
axis `d` (first argument).  `none` models the numpy error (uneven division or
invalid axis). -/
def npSplitAll : Nat → NpArr → Nat → Option (List NpArr)
  | 0, .vec l, n => (chunkList l n).map (fun cs => cs.map NpArr.vec)
  | 0, .nd cs, n => (chunkList cs n).map (fun ps => ps.map NpArr.nd)
  | _ + 1, .vec _, _ => none
  | d + 1, .nd cs, n =>
    match optMapAll (fun c => npSplitAll d c n) cs with
    | none => none
    | some parts => optMapAll (fun i => (optMapAll (fun p => p.get? i) parts).map NpArr.nd) (List.range n)

/-- Children of a 1-D tensor. -/
def vecChildren : NpArr → Option (List Int)
  | .vec l => some l
  | .nd _ => none

/-- Children of a (≥2)-D tensor. -/
def ndChildren : NpArr → Option (List NpArr)
  | .nd cs => some cs
  | .vec _ => none

/-- Numpy `np.concatenate(ps, axis=d)`; `none` models the numpy error on an
empty list, mismatched kinds or mismatched sizes. -/
def npConcat : Nat → List NpArr → Option NpArr
  | _, [] => none
  | 0, p :: ps =>
    match p with
    | .vec _ => (optMapAll vecChildren (p :: ps)).map (fun ls => NpArr.vec ls.flatten)
    | .nd _ => (optMapAll ndChildren (p :: ps)).map (fun cs => NpArr.nd cs.flatten)
  | d + 1, p :: ps =>
    match optMapAll ndChildren (p :: ps) with
    | none => none
    | some css =>
      let m := (css.headD []).length
      if css.all (fun c => c.length = m) then
        (optMapAll (fun j =>
          match optMapAll (fun c => c.get? j) css with
          | none => none
          | some col => npConcat d col) (List.range m)).map NpArr.nd
      else none

/-- The source `split` helper (lines 89-96): the `idx`-th of `tp_size` equal
sections of `v`; identity for `tp_size == 1`; 1-D tensors are always split
along their only axis regardless of `dim` (`np.ascontiguousarray` is the
identity in this model). -/
def split (v : NpArr) (tp_size idx dim : Nat) : Option NpArr :=
  if tp_size = 1 then some v
  else
    match v with
    | .vec _ => (npSplitAll 0 v tp_size).bind (fun ps => ps.get? idx)
    | .nd _ => (npSplitAll dim v tp_size).bind (fun ps => ps.get? idx)

/-- `shape[0]` of a tensor. -/
def rows0 : NpArr → Nat
  | .vec l => l.length
  | .nd cs => cs.length

/-- Length of a tensor along axis `d` (its only axis for a 1-D tensor, first
child for deeper axes; meaningful on the rectangular tensors numpy builds). -/
def axLen : NpArr → Nat → Nat
  | .vec l, _ => l.length
  | .nd cs, 0 => cs.length
  | .nd [], _ + 1 => 0
  | .nd (c :: _), d + 1 => axLen c d

/-- Numpy `np.pad(m, ((0, p), (0, 0)), "constant", constant_values=0)` on a
2-D array: append `p` zero rows of the array's column count; `none` models
the numpy error on a 1-D array. -/
def padRows (v : NpArr) (p : Nat) : Option NpArr :=
  match v with
  | .nd rows =>
    let cols := match rows with
      | .vec r :: _ => r.length
      | _ => 0
    some (.nd (rows ++ List.replicate p (.vec (List.replicate cols 0))))
  | .vec _ => none

/-- Modelled from the spec: `tensorrt_llm._utils.pad_vocab_size` is an
external library function; spec section 4.2: round the vocabulary size up to
the next multiple of the tensor-parallel size. -/
def pad_vocab_size (vocab_size tp_size : Nat) : Nat :=
  ((vocab_size + tp_size - 1) / tp_size) * tp_size

/- ### Config synthesis -/

/-- The architecture lookup table `DECODER_MODEL_TYPE` (source lines 30-36);
`none` models the `KeyError` on an unrecognized decoder type. -/
def DECODER_MODEL_TYPE (d : String) : Option String :=
  if d == "gptj" then some "GPTForCausalLM"
  else if d == "gptnext" then some "GPTForCausalLM"
  else if d == "llama" then some "LLaMAForCausalLM"
  else if d == "gemma" then some "GemmaForCausalLM"
  else if d == "falcon" then some "FalconForCausalLM"
  else none

/-- The synthesized target configuration (source lines 196-244), restricted to
the fields derived from the modelled inputs; the activation, MoE and
quantization fields, which depend only on external-library lookup tables and
are not touched by any claim, are omitted. -/
structure TrtConfig where
  architecture : String
  dtype : String
  num_hidden_layers : Nat
  vocab_size : Nat
  position_embedding_type : String
  use_parallel_embedding : Bool
  world_size : Nat
  tp_size : Nat
  pp_size : Nat
  new_decoder_architecture : Option Bool
  parallel_attention : Option Bool
  rotary_scaling_factor : Option Int
deriving DecidableEq

/-- Config synthesis (source lines 196-244): the architecture tag is resolved
through `DECODER_MODEL_TYPE` (a `KeyError`, i.e. `none`, on a miss), the
position-embedding kind is collapsed to two buckets, and the falcon-specific
flags and the rotary-scaling descriptor are attached conditionally. -/
def mkConfig (decoder_type dtype : String) (num_layers tp pp vocab_size_padded : Nat)
    (pos_emb : Option String) (useParEmb : Bool) (rotary : Option Int) : Option TrtConfig :=
  match DECODER_MODEL_TYPE decoder_type with
  | none => none
  | some arch =>
    some { architecture := arch
           dtype := dtype
           num_hidden_layers := num_layers
           vocab_size := vocab_size_padded
           position_embedding_type :=
             if pos_emb == some "rope" then "rope_gpt_neox" else "learned_absolute"
           use_parallel_embedding := useParEmb
           world_size := tp * pp
           tp_size := tp
           pp_size := pp
           new_decoder_architecture :=
             if decoder_type == "falcon" then some (num_layers != 32) else none
           parallel_attention := if decoder_type == "falcon" then some true else none
           rotary_scaling_factor := rotary }

/- ### The rank loop -/

/-- First-pipeline-rank-only weights (source lines 276-293): attach the vocab
embedding and, when present, the position embedding, row-sliced per tp rank
when `use_parallel_embedding` is set and replicated otherwise. -/
def addFirst (src : WMap) (tp t : Nat) (useParEmb : Bool) (first : Bool) (m : WMap) : Option WMap :=
  if first then
    match dget src "transformer.vocab_embedding.weight" with
    | none => none
    | some ve =>
      match (if useParEmb then split ve tp t 0 else some ve) with
      | none => none
      | some ew =>
        let m1 := dinsert m "transformer.vocab_embedding.weight" ew
        match dget src "transformer.position_embedding.weight" with
        | none => some m1
        | some pe =>
          match (if useParEmb then split pe tp t 0 else some pe) with
          | none => none
          | some pw => some (dinsert m1 "transformer.position_embedding.weight" pw)
  else some m

/-- Last-pipeline-rank-only weights (source lines 295-303): attach the
row-sliced padded lm_head, the final layernorm weight and, when present, the
final layernorm bias. -/
def addLast (src : WMap) (lmP : NpArr) (tp t : Nat) (last : Bool) (m : WMap) : Option WMap :=
  if last then
    match split lmP tp t 0 with
    | none => none
    | some lw =>
      let m1 := dinsert m "lm_head.weight" lw
      match dget src "transformer.ln_f.weight" with
      | none => none
      | some fw =>
        let m2 := dinsert m1 "transformer.ln_f.weight" fw
        match dget src "transformer.ln_f.bias" with
        | none => some m2
        | some b => some (dinsert m2 "transformer.ln_f.bias" b)
  else some m

/-- One iteration of the rank loop (source lines 254-308): the per-rank
weight mapping of target rank `i`. -/
def rankWeights (src : WMap) (lmP : NpArr) (tp pp num_layers : Nat)
    (nda useParEmb : Bool) (i : Nat) : Option WMap :=
  match layerPass (tp_rank_of i tp) (layers_start i tp pp num_layers)
      (layers_stop i tp pp num_layers) nda [] src with
  | none => none
  | some m0 =>
    match addFirst src tp (tp_rank_of i tp) useParEmb (is_first_pp_rank i tp) m0 with
    | none => none
    | some m1 => addLast src lmP tp (tp_rank_of i tp) (is_last_pp_rank i tp pp) m1

/-- The padded lm_head weight used for resharding (source lines 182-189):
looked up from the source mapping and zero-padded along the vocabulary axis
whenever `pad_vocab_size` grows the vocab-embedding row count. -/
def lmHeadForResharding (src : WMap) (tp : Nat) : Option NpArr :=
  match dget src "lm_head.weight", dget src "transformer.vocab_embedding.weight" with
  | some lm, some ve =>
    let vocab := rows0 ve
    let padded := pad_vocab_size vocab tp
    if padded ≠ vocab then padRows lm (padded - vocab) else some lm
  | _, _ => none

/-- Per-rank config clone: the shared config together with the rank's
mapping metadata (source lines 305-307). -/
structure RankedConfig where
  base : TrtConfig
  rank : Nat
  tp_rank : Nat
  pp_rank : Nat
deriving DecidableEq

/-- `model_to_trtllm_ckpt` (source lines 158-310) downstream of the external
source-checkpoint conversion: takes the flat weight mapping produced by
`convert_model_trt_llm_ckpt` together with the hyperparameters the function
reads, and produces the index-aligned per-rank weight mappings and configs.
`none` models any uncaught Python exception (no partial output). -/
def model_to_trtllm_ckpt (src : WMap) (decoder_type dtype : String)
    (num_layers tp pp : Nat) (useParEmb : Bool)
    (pos_emb : Option String) (rotary : Option Int) :
    Option (List WMap × List RankedConfig) :=
  match dget src "transformer.vocab_embedding.weight", lmHeadForResharding src tp with
  | some ve, some lmP =>
    match mkConfig decoder_type dtype num_layers tp pp (pad_vocab_size (rows0 ve) tp)
        pos_emb useParEmb rotary with
    | none => none
    | some cfg =>
      match optMapAll (rankWeights src lmP tp pp num_layers
          (cfg.new_decoder_architecture.getD false) useParEmb) (List.range (tp * pp)) with
      | none => none
      | some ws =>
        some (ws, (List.range (tp * pp)).map (fun i =>
          { base := cfg, rank := i, tp_rank := tp_rank_of i tp, pp_rank := pp_rank_of i tp }))
  | _, _ => none


/- ### Derived helpers used by the theorems -/

/-- The axis the source `split` actually cuts along: a 1-D tensor is always
split along its only axis, any other tensor along `dim`. -/
def effAxis (v : NpArr) (dim : Nat) : Nat :=
  match v with
  | .vec _ => 0
  | .nd _ => dim

/-- The value of `config.get("new_decoder_architecture", False)` seen by the
rank loop: set only for the falcon decoder, by the exact layer-count
heuristic. -/
def runNda (decoder_type : String) (num_layers : Nat) : Bool :=
  decoder_type == "falcon" && num_layers != 32

/-- Decidable check that no source key outside `pp_key` is rewritten onto a
`pp_key` name by the per-key rewriting of the given rank parameters (the
first/last-rank weights are then attached exclusively by the dedicated
logic). -/
def cleanSrc (src : WMap) (t start stop : Nat) (nda : Bool) : Bool :=
  src.all (fun kv =>
    pp_key.contains kv.1 ||
    (match transformKey t start stop nda kv.1 with
     | none => true
     | some k2 => !pp_key.contains k2))

/- ### `to_word_list_format` (source lines 100-155) -/

/-- Tokenisation of one word with the reference-prefix workaround (source
lines 130-138): encode `ref ++ word`; when the reference ids survive as a
prefix, strip them, otherwise fall back to encoding the word alone.  The
tokenizer is an external collaborator, passed as `encode`. -/
def wordTokens (encode : String → List Int) (ref : String) (w : String) : List Int :=
  let ids_ref := encode ref
  let ids := encode (ref ++ w)
  if ids.take ids_ref.length = ids_ref then ids.drop ids_ref.length else encode w

/-- Helper for `cumsum`: running partial sums starting from `acc`. -/
def cumsumFrom (acc : Int) : List Int → List Int
  | [] => []
  | x :: rest => (acc + x) :: cumsumFrom (acc + x) rest

/-- Numpy `np.cumsum` on a 1-D integer array. -/
def cumsum (l : List Int) : List Int := cumsumFrom 0 l

/-- One batch item of `to_word_list_format` (source lines 121-147): split the
item's single string into comma-separated words (modelled from the spec:
`csv.reader` on one line of comma-separated words), tokenise each word,
drop words with zero tokens, and return the flattened ids together with the
cumulative per-word counts.  `none` models the `IndexError` on an empty
item. -/
def itemRows (encode : String → List Int) (ref : String) (item : List String) :
    Option (List Int × List Int) :=
  match item with
  | [] => none
  | s :: _ =>
    let words := pySplitChar s ','
    let fl := words.foldl (fun (acc : List Int × List Int) w =>
      let ids := wordTokens encode ref w
      if ids.length = 0 then acc
      else (acc.1 ++ ids, acc.2 ++ [(ids.length : Int)])) ([], [])
    some (fl.1, cumsum fl.2)

/-- The word-token lists of one batch item after dropping zero-token words:
the declarative description of what the accumulation loop of
`to_word_list_format` collects. -/
def wordTokenLists (encode : String → List Int) (ref : String) (s : String) :
    List (List Int) :=
  ((pySplitChar s ',').map (wordTokens encode ref)).filter (fun t => !t.isEmpty)

/-- `to_word_list_format` (source lines 100-155): per batch item collect
flattened ids and cumulative offsets, then right-pad ids with `0` and
offsets with `-1` to the longest id row (at least 1) and stack into a
`(batch, 2, pad_to)` array.  `none` models the `ValueError` of `max` on an
empty batch or the `IndexError` on an empty item. -/
def to_word_list_format (encode : String → List Int) (ref : String)
    (word_dict : List (List String)) : Option (List (List (List Int))) :=
  match optMapAll (itemRows encode ref) word_dict with
  | none => none
  | some rows =>
    match rows with
    | [] => none
    | r0 :: rest =>
      let pad_to := max 1 (((r0 :: rest).map (fun r => r.1.length)).foldl max 0)
      some ((r0 :: rest).map (fun r =>
        [r.1 ++ List.replicate (pad_to - r.1.length) 0,
         r.2 ++ List.replicate (pad_to - r.2.length) (-1)]))

/- ### `prompt_convert` (source lines 41-72) -/

/-- The per-task weight key used by `prompt_convert`. -/
def prompt_table_key (name : String) : String :=
  "prompt_table." ++ name ++ ".prompt_embeddings.weight"

/-- Padding of one task's embedding table (source lines 63-66):
`torch.zeros((max_vtoken_len, embedding_dim))` overwritten in its first
`rows` rows by the table; `none` models the torch shape error when the
table's column count differs from `embedding_dim`. -/
def padTaskTable (maxLen dim : Nat) (tbl : List (List Int)) :
    Option (List (List Int)) :=
  if tbl.all (fun r => r.length = dim) then
    some (tbl ++ List.replicate (maxLen - tbl.length) (List.replicate dim 0))
  else none

/-- `prompt_convert` (source lines 41-72): with task templates, collect each
named task's embedding table when present (missing tasks are skipped by the
`continue`), pad every collected table with zero rows up to the longest
table's row count and stack them; without task templates, pass the combined
embedding-weights tensor through unchanged.  The task templates are given by
their `taskname` fields (the only field the source reads); `none` on the
combined tensor models the `KeyError` on a missing
`prompt_embeddings_weights` entry, and `none` as a result also models the
`ValueError` of `max` when no task's weights are found. -/
def prompt_convert (task_templates : Option (List String))
    (prompt_table : PyDict (List (List Int))) (combined : Option NpArr) :
    Option NpArr :=
  match task_templates with
  | none => combined
  | some templates =>
    let found := templates.filterMap (fun name => dget prompt_table (prompt_table_key name))
    match found with
    | [] => none
    | t0 :: rest =>
      let maxLen := ((t0 :: rest).map List.length).foldl max 0
      let dim := (t0.headD []).length
      match optMapAll (padTaskTable maxLen dim) (t0 :: rest) with
      | none => none
      | some padded => some (.nd (padded.map (fun tbl => .nd (tbl.map NpArr.vec))))

/- ### Concrete example fixtures used by counterexamples and witnesses -/

/-- A four-rank example source mapping (tp=2, pp=2, num_layers=2). -/
def exSrc4 : WMap :=
  [("lm_head.weight", .nd [.vec [1], .vec [2]]),
   ("transformer.vocab_embedding.weight", .nd [.vec [3], .vec [4]]),
   ("transformer.ln_f.weight", .vec [5]),
   ("transformer.layers.1.mlp.weight.1.bin", .vec [7])]

/-- The shared config record of the gptj run on `exSrc4`. -/
def exCfg4 : TrtConfig :=
  { architecture := "GPTForCausalLM", dtype := "bfloat16", num_hidden_layers := 2,
    vocab_size := 2, position_embedding_type := "learned_absolute",
    use_parallel_embedding := false, world_size := 4, tp_size := 2, pp_size := 2,
    new_decoder_architecture := none, parallel_attention := none,
    rotary_scaling_factor := none }

/-- The per-rank weight mappings of the gptj run on `exSrc4`. -/
def exWs4 : List WMap :=
  [[("transformer.layers.1.mlp.weight.1.bin", .vec [7]),
    ("transformer.vocab_embedding.weight", .nd [.vec [3], .vec [4]])],
   [("transformer.layers.1.mlp.weight", .vec [7]),
    ("transformer.vocab_embedding.weight", .nd [.vec [3], .vec [4]])],
   [("transformer.layers.0.mlp.weight.1.bin", .vec [7]),
    ("lm_head.weight", .nd [.vec [1]]),
    ("transformer.ln_f.weight", .vec [5])],
   [("transformer.layers.0.mlp.weight", .vec [7]),
    ("lm_head.weight", .nd [.vec [2]]),
    ("transformer.ln_f.weight", .vec [5])]]

/-- The per-rank configs of the gptj run on `exSrc4`. -/
def exCfgs4 : List RankedConfig :=
  [{ base := exCfg4, rank := 0, tp_rank := 0, pp_rank := 0 },
   { base := exCfg4, rank := 1, tp_rank := 1, pp_rank := 0 },
   { base := exCfg4, rank := 2, tp_rank := 0, pp_rank := 1 },
   { base := exCfg4, rank := 3, tp_rank := 1, pp_rank := 1 }]

/-- A one-rank falcon example source mapping (tp=1, pp=1, num_layers=60). -/
def exSrcF : WMap :=
  [("lm_head.weight", .nd [.vec [1]]),
   ("transformer.vocab_embedding.weight", .nd [.vec [8]]),
   ("transformer.ln_f.weight", .vec [5]),
   ("transformer.layers.0.post_layernorm.weight", .vec [9])]

/-- The shared config record of the falcon run on `exSrcF`. -/
def exCfgF : TrtConfig :=
  { architecture := "FalconForCausalLM", dtype := "bfloat16", num_hidden_layers := 60,
    vocab_size := 1, position_embedding_type := "learned_absolute",
    use_parallel_embedding := false, world_size := 1, tp_size := 1, pp_size := 1,
    new_decoder_architecture := some true, parallel_attention := some true,
    rotary_scaling_factor := none }

/-- The per-rank weight mappings of the falcon run on `exSrcF`. -/
def exWsF : List WMap :=
  [[("transformer.layers.0.mlp_layernorm.weight", .vec [9]),
    ("transformer.vocab_embedding.weight", .nd [.vec [8]]),
    ("lm_head.weight", .nd [.vec [1]]),
    ("transformer.ln_f.weight", .vec [5])]]

/-- The per-rank configs of the falcon run on `exSrcF`. -/
def exCfgsF : List RankedConfig :=
  [{ base := exCfgF, rank := 0, tp_rank := 0, pp_rank := 0 }]

/- ### Dictionary lemmas -/

theorem bool_ne_true {b : Bool} (h : b = false) : ¬(b = true) := by
  simp [h]

theorem containsKey_dinsert_self {T : Type} (m : PyDict T) (k : String) (v : T) :
    containsKey (dinsert m k v) k = true := by
  unfold dinsert
  split
  next h =>
    unfold containsKey at h ⊢
    rcases List.any_eq_true.mp h with ⟨p, hp, hpk⟩
    refine List.any_eq_true.mpr ⟨_, List.mem_map_of_mem _ hp, ?_⟩
    simp [hpk]
  next h =>
    unfold containsKey
    rw [List.any_append]
    simp

theorem containsKey_dinsert_other {T : Type} (m : PyDict T) (k q : String) (v : T)
    (hne : k ≠ q) : containsKey (dinsert m k v) q = containsKey m q := by
  have hkq : (k == q) = false := beq_eq_false_iff_ne.mpr hne
  unfold dinsert
  split
  next h =>
    unfold containsKey
    rw [List.any_map]
    congr 1
    funext p
    simp only [Function.comp]
    by_cases hpk : (p.1 == k) = true
    · have hp1 : p.1 = k := by simpa using hpk
      rw [if_pos hpk, hp1]
    · rw [if_neg hpk]
  next h =>
    unfold containsKey
    rw [List.any_append]
    simp [hkq]

theorem containsKey_dinsert_mono {T : Type} (m : PyDict T) (k q : String) (v : T)
    (hq : containsKey m q = true) : containsKey (dinsert m k v) q = true := by
  by_cases hkq : k = q
  · subst hkq; exact containsKey_dinsert_self m k v
  · rw [containsKey_dinsert_other m k q v hkq]; exact hq

theorem containsKey_dinsert_rev {T : Type} (m : PyDict T) (k q : String) (v : T)
    (h : containsKey (dinsert m k v) q = true) : q = k ∨ containsKey m q = true := by
  by_cases hkq : k = q
  · exact Or.inl hkq.symm
  · rw [containsKey_dinsert_other m k q v hkq] at h; exact Or.inr h

/- ### Per-layer pass lemmas -/

theorem layerPass_mono (t s e : Nat) (nda : Bool) :
    ∀ (src acc m : WMap) (q : String),
      layerPass t s e nda acc src = some m → containsKey acc q = true →
      containsKey m q = true := by
  intro src
  induction src with
  | nil =>
    intro acc m q h hq
    simp only [layerPass, Option.some.injEq] at h
    exact h ▸ hq
  | cons kv rest ih =>
    intro acc m q h hq
    obtain ⟨k, v⟩ := kv
    by_cases hpp : pp_key.contains k = true
    · rw [layerPass, if_pos hpp] at h
      exact ih acc m q h hq
    · rw [layerPass, if_neg hpp] at h
      cases htk : transformKey t s e nda k with
      | none => rw [htk] at h; exact absurd h (by simp)
      | some k2 =>
        rw [htk] at h
        exact ih _ m q h (containsKey_dinsert_mono acc k2 q v hq)

theorem layerPass_mem (t s e : Nat) (nda : Bool) :
    ∀ (src acc m : WMap) (k : String) (v : NpArr) (k2 : String),
      layerPass t s e nda acc src = some m → (k, v) ∈ src →
      pp_key.contains k = false → transformKey t s e nda k = some k2 →
      containsKey m k2 = true := by
  intro src
  induction src with
  | nil => intro acc m k v k2 _ hmem; exact absurd hmem (List.not_mem_nil _)
  | cons kv rest ih =>
    intro acc m k v k2 h hmem hpp htk
    obtain ⟨k0, v0⟩ := kv
    rcases List.mem_cons.mp hmem with heq | htail
    · injection heq with h1 h2
      subst h1; subst h2
      rw [layerPass, if_neg (bool_ne_true hpp), htk] at h
      exact layerPass_mono t s e nda rest _ m k2 h (containsKey_dinsert_self acc k2 v)
    · by_cases hpp0 : pp_key.contains k0 = true
      · rw [layerPass, if_pos hpp0] at h
        exact ih acc m k v k2 h htail hpp htk
      · rw [layerPass, if_neg hpp0] at h
        cases htk0 : transformKey t s e nda k0 with
        | none => rw [htk0] at h; exact absurd h (by simp)
        | some k02 =>
          rw [htk0] at h
          exact ih _ m k v k2 h htail hpp htk

theorem layerPass_subset (t s e : Nat) (nda : Bool) :
    ∀ (src acc m : WMap) (q : String),
      layerPass t s e nda acc src = some m → containsKey m q = true →
      containsKey acc q = true ∨
        ∃ kv, kv ∈ src ∧ pp_key.contains kv.1 = false ∧
          transformKey t s e nda kv.1 = some q := by
  intro src
  induction src with
  | nil =>
    intro acc m q h hq
    simp only [layerPass, Option.some.injEq] at h
    exact Or.inl (h ▸ hq)
  | cons kv rest ih =>
    intro acc m q h hq
    obtain ⟨k0, v0⟩ := kv
    by_cases hpp0 : pp_key.contains k0 = true
    · rw [layerPass, if_pos hpp0] at h
      rcases ih acc m q h hq with hl | ⟨kv1, h1, h2, h3⟩
      · exact Or.inl hl
      · exact Or.inr ⟨kv1, List.mem_cons_of_mem _ h1, h2, h3⟩
    · rw [layerPass, if_neg hpp0] at h
      cases htk0 : transformKey t s e nda k0 with
      | none => rw [htk0] at h; exact absurd h (by simp)
      | some k02 =>
        rw [htk0] at h
        rcases ih _ m q h hq with hl | ⟨kv1, h1, h2, h3⟩
        · rcases containsKey_dinsert_rev acc k02 q v0 hl with rfl | hacc
          · have hpp0f : pp_key.contains k0 = false := by
              cases hb : pp_key.contains k0 with
              | true => exact absurd hb hpp0
              | false => rfl
            exact Or.inr ⟨(k0, v0), List.mem_cons_self .., hpp0f, htk0⟩
          · exact Or.inl hacc
        · exact Or.inr ⟨kv1, List.mem_cons_of_mem _ h1, h2, h3⟩

/- ### optMapAll lemmas -/

theorem optMapAll_length {A B : Type} (f : A → Option B) :
    ∀ (l : List A) (ys : List B), optMapAll f l = some ys → ys.length = l.length := by
  intro l
  induction l with
  | nil => intro ys h; simp only [optMapAll, Option.some.injEq] at h; simp [← h]
  | cons x rest ih =>
    intro ys h
    rw [optMapAll] at h
    cases hf : f x with
    | none => rw [hf] at h; exact absurd h (by simp)
    | some y =>
      rw [hf] at h
      cases hr : optMapAll f rest with
      | none => rw [hr] at h; exact absurd h (by simp)
      | some ys0 =>
        rw [hr] at h
        simp only [Option.some.injEq] at h
        simp [← h, ih ys0 hr]

theorem optMapAll_get {A B : Type} (f : A → Option B) :
    ∀ (l : List A) (ys : List B) (i : Nat) (x : A),
      optMapAll f l = some ys → l.get? i = some x →
      ∃ y, ys.get? i = some y ∧ f x = some y := by
  intro l
  induction l with
  | nil => intro ys i x _ hx; simp at hx
  | cons x0 rest ih =>
    intro ys i x h hx
    rw [optMapAll] at h
    cases hf : f x0 with
    | none => rw [hf] at h; exact absurd h (by simp)
    | some y0 =>
      rw [hf] at h
      cases hr : optMapAll f rest with
      | none => rw [hr] at h; exact absurd h (by simp)
      | some ys0 =>
        rw [hr] at h
        simp only [Option.some.injEq] at h
        subst h
        cases i with
        | zero =>
          obtain rfl : x0 = x := by simpa using hx
          exact ⟨y0, by simp, hf⟩
        | succ j =>
          simp only [List.get?] at hx ⊢
          exact ih ys0 j x hr hx

theorem optMapAll_mem {A B : Type} (f : A → Option B) :
    ∀ (l : List A) (ys : List B) (y : B),
      optMapAll f l = some ys → y ∈ ys → ∃ x, x ∈ l ∧ f x = some y := by
  intro l
  induction l with
  | nil =>
    intro ys y h hy
    simp only [optMapAll, Option.some.injEq] at h
    subst h; simp at hy
  | cons x0 rest ih =>
    intro ys y h hy
    rw [optMapAll] at h
    cases hf : f x0 with
    | none => rw [hf] at h; exact absurd h (by simp)
    | some y0 =>
      rw [hf] at h
      cases hr : optMapAll f rest with
      | none => rw [hr] at h; exact absurd h (by simp)
      | some ys0 =>
        rw [hr] at h
        simp only [Option.some.injEq] at h
        subst h
        rcases List.mem_cons.mp hy with rfl | htail
        · exact ⟨x0, List.mem_cons_self .., hf⟩
        · rcases ih ys0 y hr htail with ⟨x, hx1, hx2⟩
          exact ⟨x, List.mem_cons_of_mem _ hx1, hx2⟩

/- ### Run-extraction lemmas -/

theorem mkConfig_nda (decoder dtype : String) (nl tp pp vp : Nat) (pe : Option String)
    (u : Bool) (ro : Option Int) (cfg : TrtConfig)
    (h : mkConfig decoder dtype nl tp pp vp pe u ro = some cfg) :
    cfg.new_decoder_architecture.getD false = runNda decoder nl := by
  unfold mkConfig at h
  cases hD : DECODER_MODEL_TYPE decoder with
  | none => rw [hD] at h; exact absurd h (by simp)
  | some arch =>
    rw [hD] at h
    simp only [Option.some.injEq] at h
    subst h
    cases hf : decoder == "falcon" <;> simp [runNda, hf]

theorem mkConfig_arch (decoder dtype : String) (nl tp pp vp : Nat) (pe : Option String)
    (u : Bool) (ro : Option Int) (cfg : TrtConfig)
    (h : mkConfig decoder dtype nl tp pp vp pe u ro = some cfg) :
    DECODER_MODEL_TYPE decoder = some cfg.architecture := by
  unfold mkConfig at h
  cases hD : DECODER_MODEL_TYPE decoder with
  | none => rw [hD] at h; exact absurd h (by simp)
  | some arch =>
    rw [hD] at h
    simp only [Option.some.injEq] at h
    subst h
    rfl

theorem run_shape (src : WMap) (decoder dtype : String) (nl tp pp : Nat) (u : Bool)
    (pe : Option String) (ro : Option Int) (ws : List WMap) (cfgs : List RankedConfig)
    (h : model_to_trtllm_ckpt src decoder dtype nl tp pp u pe ro = some (ws, cfgs)) :
    ∃ ve lmP cfg,
      dget src "transformer.vocab_embedding.weight" = some ve ∧
      lmHeadForResharding src tp = some lmP ∧
      mkConfig decoder dtype nl tp pp (pad_vocab_size (rows0 ve) tp) pe u ro = some cfg ∧
      optMapAll (rankWeights src lmP tp pp nl (runNda decoder nl) u)
        (List.range (tp * pp)) = some ws ∧
      cfgs = (List.range (tp * pp)).map (fun i =>
        { base := cfg, rank := i, tp_rank := tp_rank_of i tp, pp_rank := pp_rank_of i tp }) := by
  unfold model_to_trtllm_ckpt at h
  cases hve : dget src "transformer.vocab_embedding.weight" with
  | none => rw [hve] at h; exact absurd h (by simp)
  | some ve =>
    rw [hve] at h
    cases hlm : lmHeadForResharding src tp with
    | none => rw [hlm] at h; exact absurd h (by simp)
    | some lmP =>
      rw [hlm] at h
      simp only [] at h
      cases hcfg : mkConfig decoder dtype nl tp pp (pad_vocab_size (rows0 ve) tp) pe u ro with
      | none => rw [hcfg] at h; exact absurd h (by simp)
      | some cfg =>
        rw [hcfg] at h
        simp only [] at h
        rw [mkConfig_nda decoder dtype nl tp pp _ pe u ro cfg hcfg] at h
        cases hws : optMapAll (rankWeights src lmP tp pp nl (runNda decoder nl) u)
            (List.range (tp * pp)) with
        | none => rw [hws] at h; exact absurd h (by simp)
        | some ws0 =>
          rw [hws] at h
          simp only [Option.some.injEq, Prod.mk.injEq] at h
          obtain ⟨h1, h2⟩ := h
          exact ⟨ve, lmP, cfg, rfl, rfl, hcfg, h1 ▸ hws, h2.symm⟩

theorem rankWeights_parts (src : WMap) (lmP : NpArr) (tp pp nl : Nat) (nda u : Bool)
    (i : Nat) (w : WMap) (h : rankWeights src lmP tp pp nl nda u i = some w) :
    ∃ m0 m1,
      layerPass (tp_rank_of i tp) (layers_start i tp pp nl) (layers_stop i tp pp nl)
        nda [] src = some m0 ∧
      addFirst src tp (tp_rank_of i tp) u (is_first_pp_rank i tp) m0 = some m1 ∧
      addLast src lmP tp (tp_rank_of i tp) (is_last_pp_rank i tp pp) m1 = some w := by
  unfold rankWeights at h
  cases h0 : layerPass (tp_rank_of i tp) (layers_start i tp pp nl) (layers_stop i tp pp nl)
      nda [] src with
  | none => rw [h0] at h; exact absurd h (by simp)
  | some m0 =>
    rw [h0] at h
    simp only [] at h
    cases h1 : addFirst src tp (tp_rank_of i tp) u (is_first_pp_rank i tp) m0 with
    | none => rw [h1] at h; exact absurd h (by simp)
    | some m1 =>
      rw [h1] at h
      simp only [] at h
      exact ⟨m0, m1, rfl, h1, h⟩

theorem run_rank (src : WMap) (lmP : NpArr) (tp pp nl : Nat) (nda u : Bool)
    (ws : List WMap) (i : Nat) (hi : i < tp * pp)
    (hws : optMapAll (rankWeights src lmP tp pp nl nda u) (List.range (tp * pp)) = some ws) :
    ∃ w, ws.get? i = some w ∧ rankWeights src lmP tp pp nl nda u i = some w := by
  have hr : (List.range (tp * pp)).get? i = some i := List.get?_range hi
  rcases optMapAll_get _ (List.range (tp * pp)) ws i i hws hr with ⟨w, hw1, hw2⟩
  exact ⟨w, hw1, hw2⟩

/- ### addFirst / addLast lemmas -/

theorem addFirst_false (src : WMap) (tp t : Nat) (u : Bool) (m m1 : WMap)
    (h : addFirst src tp t u false m = some m1) : m1 = m := by
  unfold addFirst at h
  simp at h
  exact h.symm

theorem addFirst_true_parts (src : WMap) (tp t : Nat) (u : Bool) (m m1 : WMap)
    (h : addFirst src tp t u true m = some m1) :
    ∃ ve ew, dget src "transformer.vocab_embedding.weight" = some ve ∧
      (if u then split ve tp t 0 else some ve) = some ew ∧
      ((dget src "transformer.position_embedding.weight" = none ∧
        m1 = dinsert m "transformer.vocab_embedding.weight" ew) ∨
       (∃ pe pw, dget src "transformer.position_embedding.weight" = some pe ∧
        (if u then split pe tp t 0 else some pe) = some pw ∧
        m1 = dinsert (dinsert m "transformer.vocab_embedding.weight" ew)
               "transformer.position_embedding.weight" pw)) := by
  unfold addFirst at h
  rw [if_pos rfl] at h
  cases hve : dget src "transformer.vocab_embedding.weight" with
  | none => rw [hve] at h; exact absurd h (by simp)
  | some ve =>
    rw [hve] at h
    simp only [] at h
    cases hew : (if u then split ve tp t 0 else some ve) with
    | none => rw [hew] at h; exact absurd h (by simp)
    | some ew =>
      rw [hew] at h
      simp only [] at h
      cases hpe : dget src "transformer.position_embedding.weight" with
      | none =>
        rw [hpe] at h
        simp only [Option.some.injEq] at h
        exact ⟨ve, ew, rfl, hew, Or.inl ⟨rfl, h.symm⟩⟩
      | some pe =>
        rw [hpe] at h
        simp only [] at h
        cases hpw : (if u then split pe tp t 0 else some pe) with
        | none => rw [hpw] at h; exact absurd h (by simp)
        | some pw =>
          rw [hpw] at h
          simp only [Option.some.injEq] at h
          exact ⟨ve, ew, rfl, hew, Or.inr ⟨pe, pw, rfl, hpw, h.symm⟩⟩

theorem addFirst_mono (src : WMap) (tp t : Nat) (u first : Bool) (m m1 : WMap) (q : String)
    (h : addFirst src tp t u first m = some m1) (hq : containsKey m q = true) :
    containsKey m1 q = true := by
  cases first with
  | false => rw [addFirst_false src tp t u m m1 h]; exact hq
  | true =>
    rcases addFirst_true_parts src tp t u m m1 h with ⟨ve, ew, hve, hew, hrest⟩
    rcases hrest with ⟨hpe, rfl⟩ | ⟨pe, pw, hpe, hpw, rfl⟩
    · exact containsKey_dinsert_mono _ _ _ _ hq
    · exact containsKey_dinsert_mono _ _ _ _ (containsKey_dinsert_mono _ _ _ _ hq)

theorem addFirst_other (src : WMap) (tp t : Nat) (u first : Bool) (m m1 : WMap) (q : String)
    (h : addFirst src tp t u first m = some m1)
    (hq1 : q ≠ "transformer.vocab_embedding.weight")
    (hq2 : q ≠ "transformer.position_embedding.weight") :
    containsKey m1 q = containsKey m q := by
  cases first with
  | false => rw [addFirst_false src tp t u m m1 h]
  | true =>
    rcases addFirst_true_parts src tp t u m m1 h with ⟨ve, ew, hve, hew, hrest⟩
    rcases hrest with ⟨hpe, rfl⟩ | ⟨pe, pw, hpe, hpw, rfl⟩
    · exact containsKey_dinsert_other _ _ _ _ (Ne.symm hq1)
    · rw [containsKey_dinsert_other _ _ _ _ (Ne.symm hq2),
        containsKey_dinsert_other _ _ _ _ (Ne.symm hq1)]

theorem addFirst_adds (src : WMap) (tp t : Nat) (u : Bool) (m m1 : WMap)
    (h : addFirst src tp t u true m = some m1) :
    containsKey m1 "transformer.vocab_embedding.weight" = true ∧
    (∀ pe, dget src "transformer.position_embedding.weight" = some pe →
      containsKey m1 "transformer.position_embedding.weight" = true) := by
  rcases addFirst_true_parts src tp t u m m1 h with ⟨ve, ew, hve, hew, hrest⟩
  rcases hrest with ⟨hpe, rfl⟩ | ⟨pe, pw, hpe, hpw, rfl⟩
  · refine ⟨containsKey_dinsert_self _ _ _, fun pe2 hpe2 => ?_⟩
    rw [hpe] at hpe2
    exact absurd hpe2 (by simp)
  · exact ⟨containsKey_dinsert_mono _ _ _ _ (containsKey_dinsert_self _ _ _),
      fun pe2 hpe2 => containsKey_dinsert_self _ _ _⟩

theorem addLast_false (src : WMap) (lmP : NpArr) (tp t : Nat) (m m1 : WMap)
    (h : addLast src lmP tp t false m = some m1) : m1 = m := by
  unfold addLast at h
  simp at h
  exact h.symm

theorem addLast_true_parts (src : WMap) (lmP : NpArr) (tp t : Nat) (m m1 : WMap)
    (h : addLast src lmP tp t true m = some m1) :
    ∃ lw fw, split lmP tp t 0 = some lw ∧
      dget src "transformer.ln_f.weight" = some fw ∧
      ((dget src "transformer.ln_f.bias" = none ∧
        m1 = dinsert (dinsert m "lm_head.weight" lw) "transformer.ln_f.weight" fw) ∨
       (∃ b, dget src "transformer.ln_f.bias" = some b ∧
        m1 = dinsert (dinsert (dinsert m "lm_head.weight" lw)
               "transformer.ln_f.weight" fw) "transformer.ln_f.bias" b)) := by
  unfold addLast at h
  rw [if_pos rfl] at h
  cases hlw : split lmP tp t 0 with
  | none => rw [hlw] at h; exact absurd h (by simp)
  | some lw =>
    rw [hlw] at h
    simp only [] at h
    cases hfw : dget src "transformer.ln_f.weight" with
    | none => rw [hfw] at h; exact absurd h (by simp)
    | some fw =>
      rw [hfw] at h
      simp only [] at h
      cases hb : dget src "transformer.ln_f.bias" with
      | none =>
        rw [hb] at h
        simp only [Option.some.injEq] at h
        exact ⟨lw, fw, rfl, rfl, Or.inl ⟨rfl, h.symm⟩⟩
      | some b =>
        rw [hb] at h
        simp only [Option.some.injEq] at h
        exact ⟨lw, fw, rfl, rfl, Or.inr ⟨b, rfl, h.symm⟩⟩

theorem addLast_mono (src : WMap) (lmP : NpArr) (tp t : Nat) (last : Bool) (m m1 : WMap)
    (q : String) (h : addLast src lmP tp t last m = some m1)
    (hq : containsKey m q = true) : containsKey m1 q = true := by
  cases last with
  | false => rw [addLast_false src lmP tp t m m1 h]; exact hq
  | true =>
    rcases addLast_true_parts src lmP tp t m m1 h with ⟨lw, fw, hlw, hfw, hrest⟩
    rcases hrest with ⟨hb, rfl⟩ | ⟨b, hb, rfl⟩
    · exact containsKey_dinsert_mono _ _ _ _ (containsKey_dinsert_mono _ _ _ _ hq)
    · exact containsKey_dinsert_mono _ _ _ _
        (containsKey_dinsert_mono _ _ _ _ (containsKey_dinsert_mono _ _ _ _ hq))

theorem addLast_other (src : WMap) (lmP : NpArr) (tp t : Nat) (last : Bool) (m m1 : WMap)
    (q : String) (h : addLast src lmP tp t last m = some m1)
    (hq1 : q ≠ "lm_head.weight") (hq2 : q ≠ "transformer.ln_f.weight")
    (hq3 : q ≠ "transformer.ln_f.bias") :
    containsKey m1 q = containsKey m q := by
  cases last with
  | false => rw [addLast_false src lmP tp t m m1 h]
  | true =>
    rcases addLast_true_parts src lmP tp t m m1 h with ⟨lw, fw, hlw, hfw, hrest⟩
    rcases hrest with ⟨hb, rfl⟩ | ⟨b, hb, rfl⟩
    · rw [containsKey_dinsert_other _ _ _ _ (Ne.symm hq2),
        containsKey_dinsert_other _ _ _ _ (Ne.symm hq1)]
    · rw [containsKey_dinsert_other _ _ _ _ (Ne.symm hq3),
        containsKey_dinsert_other _ _ _ _ (Ne.symm hq2),
        containsKey_dinsert_other _ _ _ _ (Ne.symm hq1)]

theorem addLast_adds (src : WMap) (lmP : NpArr) (tp t : Nat) (m m1 : WMap)
    (h : addLast src lmP tp t true m = some m1) :
    containsKey m1 "lm_head.weight" = true ∧
    containsKey m1 "transformer.ln_f.weight" = true ∧
    (∀ b, dget src "transformer.ln_f.bias" = some b →
      containsKey m1 "transformer.ln_f.bias" = true) := by
  rcases addLast_true_parts src lmP tp t m m1 h with ⟨lw, fw, hlw, hfw, hrest⟩
  rcases hrest with ⟨hb, rfl⟩ | ⟨b, hb, rfl⟩
  · refine ⟨containsKey_dinsert_mono _ _ _ _ (containsKey_dinsert_self _ _ _),
      containsKey_dinsert_self _ _ _, fun b2 hb2 => ?_⟩
    rw [hb] at hb2
    exact absurd hb2 (by simp)
  · exact ⟨containsKey_dinsert_mono _ _ _ _
        (containsKey_dinsert_mono _ _ _ _ (containsKey_dinsert_self _ _ _)),
      containsKey_dinsert_mono _ _ _ _ (containsKey_dinsert_self _ _ _),
      fun b2 hb2 => containsKey_dinsert_self _ _ _⟩

/- ### Claim C1 -/

/-- Claim C1 (amended): for every target rank and every source weight key
(outside the `pp_key` set) whose third dot-component parses as a global layer
index `L` after the tp-suffix step: if `L` lies inside the rank's layer range
the key appears in that rank's output weight mapping with the layer index
rewritten to the rank-local index `L - layers_start`; if `L` lies outside the
rank's layer range the key still appears in the rank's output weight mapping,
with its layer index unchanged (the per-layer pass copies it as is rather
than skipping it).  The falcon renaming step applies in both cases. -/
theorem c1_layer_index_translation
    (src : WMap) (decoder dtype : String) (nl tp pp : Nat) (u : Bool)
    (pe : Option String) (ro : Option Int) (ws : List WMap) (cfgs : List RankedConfig)
    (hrun : model_to_trtllm_ckpt src decoder dtype nl tp pp u pe ro = some (ws, cfgs))
    (i : Nat) (hi : i < tp * pp) (w : WMap) (hw : ws.get? i = some w)
    (k : String) (v : NpArr) (hk : (k, v) ∈ src) (hpp : pp_key.contains k = false)
    (L : Nat) (comp : String)
    (hlay : pyContains (tpStep (tp_rank_of i tp) k) "layers" = true)
    (hcomp : (pySplitChar (tpStep (tp_rank_of i tp) k) '.')[2]? = some comp)
    (hL : pyToNat comp = some L) :
    (layers_start i tp pp nl ≤ L ∧ L < layers_stop i tp pp nl →
      containsKey w (falconStep (runNda decoder nl)
        (pyReplace (tpStep (tp_rank_of i tp) k)
          ("layers." ++ toString L)
          ("layers." ++ toString (L - layers_start i tp pp nl)))) = true) ∧
    (¬(layers_start i tp pp nl ≤ L ∧ L < layers_stop i tp pp nl) →
      containsKey w (falconStep (runNda decoder nl) (tpStep (tp_rank_of i tp) k)) = true) := by
  rcases run_shape src decoder dtype nl tp pp u pe ro ws cfgs hrun with
    ⟨ve, lmP, cfg, hve, hlm, hcfg, hws, hcfgs⟩
  rcases run_rank src lmP tp pp nl (runNda decoder nl) u ws i hi hws with ⟨w2, hw2, hrw⟩
  rw [hw] at hw2
  obtain rfl : w = w2 := by simpa using hw2
  rcases rankWeights_parts src lmP tp pp nl (runNda decoder nl) u i w hrw with
    ⟨m0, m1, h0, h1, h2⟩
  constructor
  · rintro ⟨hr1, hr2⟩
    have hcond : (decide (layers_start i tp pp nl ≤ L) &&
        decide (L < layers_stop i tp pp nl)) = true := by simp [hr1, hr2]
    have htk : transformKey (tp_rank_of i tp) (layers_start i tp pp nl)
        (layers_stop i tp pp nl) (runNda decoder nl) k
        = some (falconStep (runNda decoder nl)
            (pyReplace (tpStep (tp_rank_of i tp) k)
              ("layers." ++ toString L)
              ("layers." ++ toString (L - layers_start i tp pp nl)))) := by
      unfold transformKey layerStep
      rw [if_pos hlay, hcomp]
      simp only [] 
      rw [hL]
      simp only []
      rw [if_pos hcond]
      rfl
    have hm0 := layerPass_mem _ _ _ _ src [] m0 k v _ h0 hk hpp htk
    exact addLast_mono _ _ _ _ _ _ _ _ h2 (addFirst_mono _ _ _ _ _ _ _ _ h1 hm0)
  · intro hout
    have hcond : (decide (layers_start i tp pp nl ≤ L) &&
        decide (L < layers_stop i tp pp nl)) = false := by
      by_cases ha : layers_start i tp pp nl ≤ L
      · by_cases hb : L < layers_stop i tp pp nl
        · exact absurd ⟨ha, hb⟩ hout
        · simp [hb]
      · simp [ha]
    have htk : transformKey (tp_rank_of i tp) (layers_start i tp pp nl)
        (layers_stop i tp pp nl) (runNda decoder nl) k
        = some (falconStep (runNda decoder nl) (tpStep (tp_rank_of i tp) k)) := by
      unfold transformKey layerStep
      rw [if_pos hlay, hcomp]
      simp only []
      rw [hL]
      simp only []
      rw [if_neg (bool_ne_true hcond)]
      rfl
    have hm0 := layerPass_mem _ _ _ _ src [] m0 k v _ h0 hk hpp htk
    exact addLast_mono _ _ _ _ _ _ _ _ h2 (addFirst_mono _ _ _ _ _ _ _ _ h1 hm0)

/-- Claim C1 is false as stated: in the run below (tp=1, pp=2, num_layers=2)
the source key `transformer.layers.1.mlp.weight` has global layer 1, which
lies outside rank 0's layer range `[0, 1)`, yet the key appears (unchanged)
in rank 0's output weight mapping instead of being skipped; rank 1, which
owns layer 1, holds it under the rank-local name. -/
theorem c1_out_of_range_key_not_skipped :
    (model_to_trtllm_ckpt
        [("lm_head.weight", .nd [.vec [1]]),
         ("transformer.vocab_embedding.weight", .nd [.vec [2]]),
         ("transformer.ln_f.weight", .vec [3]),
         ("transformer.layers.1.mlp.weight", .vec [4])]
        "gptj" "bfloat16" 2 1 2 false none none).map
        (fun r => r.1.map (fun m => containsKey m "transformer.layers.1.mlp.weight"))
      = some [true, false] ∧
    layers_start 0 1 2 2 = 0 ∧ layers_stop 0 1 2 2 = 1 := by
  exact ⟨rfl, rfl, rfl⟩

/-- Witness for the amended claim C1 at a concrete input: rank 1 of the run
owns layer 1 and its output holds the key under the rank-local index 0. -/
theorem c1_layer_index_translation_witness :
    containsKey
      [("transformer.layers.0.mlp.weight", NpArr.vec [4]),
       ("lm_head.weight", NpArr.nd [NpArr.vec [1]]),
       ("transformer.ln_f.weight", NpArr.vec [3])]
      (falconStep (runNda "gptj" 2)
        (pyReplace (tpStep (tp_rank_of 1 1) "transformer.layers.1.mlp.weight")
          ("layers." ++ toString 1)
          ("layers." ++ toString (1 - layers_start 1 1 2 2)))) = true :=
  (c1_layer_index_translation
    [("lm_head.weight", .nd [.vec [1]]),
     ("transformer.vocab_embedding.weight", .nd [.vec [2]]),
     ("transformer.ln_f.weight", .vec [3]),
     ("transformer.layers.1.mlp.weight", .vec [4])]
    "gptj" "bfloat16" 2 1 2 false none none
    [[("transformer.layers.1.mlp.weight", NpArr.vec [4]),
      ("transformer.vocab_embedding.weight", NpArr.nd [NpArr.vec [2]])],
     [("transformer.layers.0.mlp.weight", NpArr.vec [4]),
      ("lm_head.weight", NpArr.nd [NpArr.vec [1]]),
      ("transformer.ln_f.weight", NpArr.vec [3])]]
    [{ base :=
        { architecture := "GPTForCausalLM", dtype := "bfloat16", num_hidden_layers := 2,
          vocab_size := 1, position_embedding_type := "learned_absolute",
          use_parallel_embedding := false, world_size := 2, tp_size := 1, pp_size := 2,
          new_decoder_architecture := none, parallel_attention := none,
          rotary_scaling_factor := none },
       rank := 0, tp_rank := 0, pp_rank := 0 },
     { base :=
        { architecture := "GPTForCausalLM", dtype := "bfloat16", num_hidden_layers := 2,
          vocab_size := 1, position_embedding_type := "learned_absolute",
          use_parallel_embedding := false, world_size := 2, tp_size := 1, pp_size := 2,
          new_decoder_architecture := none, parallel_attention := none,
          rotary_scaling_factor := none },
       rank := 1, tp_rank := 0, pp_rank := 1 }]
    rfl 1 (by decide)
    [("transformer.layers.0.mlp.weight", NpArr.vec [4]),
     ("lm_head.weight", NpArr.nd [NpArr.vec [1]]),
     ("transformer.ln_f.weight", NpArr.vec [3])]
    rfl "transformer.layers.1.mlp.weight" (NpArr.vec [4])
    (List.mem_cons_of_mem _ (List.mem_cons_of_mem _ (List.mem_cons_of_mem _
      (List.mem_cons_self _ _))))
    rfl 1 "1" rfl rfl rfl).1 ⟨by decide, by decide⟩

/-- Sanity run: the gptj conversion of `exSrc4` produces exactly the fixture
outputs. -/
theorem exSrc4_run :
    model_to_trtllm_ckpt exSrc4 "gptj" "bfloat16" 2 2 2 false none none
      = some (exWs4, exCfgs4) := rfl

/- ### Claim C2 -/

/-- Claim C2 (amended): for every target rank with tensor-parallel rank `t`,
every source weight key (outside the `pp_key` set) ending in `".bin"`: if it
also ends in `"{t}.bin"` it appears in the rank's output weight mapping under
the key with every occurrence of `".{t}.bin"` deleted, subject to the
subsequent layer-index and falcon renaming steps; a key that does not end in
`"{t}.bin"` (one belonging to a different tp rank) is *not* excluded: it
appears in the rank's output under its original, suffix-bearing name, again
subject to the subsequent renaming steps. -/
theorem c2_tp_suffix_selection
    (src : WMap) (decoder dtype : String) (nl tp pp : Nat) (u : Bool)
    (pe : Option String) (ro : Option Int) (ws : List WMap) (cfgs : List RankedConfig)
    (hrun : model_to_trtllm_ckpt src decoder dtype nl tp pp u pe ro = some (ws, cfgs))
    (i : Nat) (hi : i < tp * pp) (w : WMap) (hw : ws.get? i = some w)
    (k : String) (v : NpArr) (hk : (k, v) ∈ src) (hpp : pp_key.contains k = false)
    (hbin : pyEndsWith k ".bin" = true) (k2 : String) :
    (pyEndsWith k (toString (tp_rank_of i tp) ++ ".bin") = true →
      layerStep (layers_start i tp pp nl) (layers_stop i tp pp nl)
        (pyReplace k ("." ++ toString (tp_rank_of i tp) ++ ".bin") "") = some k2 →
      containsKey w (falconStep (runNda decoder nl) k2) = true) ∧
    (pyEndsWith k (toString (tp_rank_of i tp) ++ ".bin") = false →
      layerStep (layers_start i tp pp nl) (layers_stop i tp pp nl) k = some k2 →
      containsKey w (falconStep (runNda decoder nl) k2) = true) := by
  rcases run_shape src decoder dtype nl tp pp u pe ro ws cfgs hrun with
    ⟨ve, lmP, cfg, hve, hlm, hcfg, hws, hcfgs⟩
  rcases run_rank src lmP tp pp nl (runNda decoder nl) u ws i hi hws with ⟨w2, hw2, hrw⟩
  rw [hw] at hw2
  obtain rfl : w = w2 := by simpa using hw2
  rcases rankWeights_parts src lmP tp pp nl (runNda decoder nl) u i w hrw with
    ⟨m0, m1, h0, h1, h2⟩
  constructor
  · intro hown hls
    have hstep : tpStep (tp_rank_of i tp) k
        = pyReplace k ("." ++ toString (tp_rank_of i tp) ++ ".bin") "" := by
      unfold tpStep
      rw [if_pos hbin, if_pos hown]
    have htk : transformKey (tp_rank_of i tp) (layers_start i tp pp nl)
        (layers_stop i tp pp nl) (runNda decoder nl) k
        = some (falconStep (runNda decoder nl) k2) := by
      unfold transformKey
      rw [hstep, hls]
      rfl
    have hm0 := layerPass_mem _ _ _ _ src [] m0 k v _ h0 hk hpp htk
    exact addLast_mono _ _ _ _ _ _ _ _ h2 (addFirst_mono _ _ _ _ _ _ _ _ h1 hm0)
  · intro hother hls
    have hstep : tpStep (tp_rank_of i tp) k = k := by
      unfold tpStep
      rw [if_pos hbin, if_neg (bool_ne_true hother)]
    have htk : transformKey (tp_rank_of i tp) (layers_start i tp pp nl)
        (layers_stop i tp pp nl) (runNda decoder nl) k
        = some (falconStep (runNda decoder nl) k2) := by
      unfold transformKey
      rw [hstep, hls]
      rfl
    have hm0 := layerPass_mem _ _ _ _ src [] m0 k v _ h0 hk hpp htk
    exact addLast_mono _ _ _ _ _ _ _ _ h2 (addFirst_mono _ _ _ _ _ _ _ _ h1 hm0)

/-- Claim C2 is false as stated, on the gptj run of `exSrc4` (tp=2, pp=2):
the source key `transformer.layers.1.mlp.weight.1.bin` carries the embedded
suffix of tp rank 1, yet it appears verbatim in the output of rank 0 (whose
tp rank is 0), so keys of other tp ranks are not excluded; and on rank 3
(tp rank 1, which owns layer 1) the canonical stripped key
`transformer.layers.1.mlp.weight` does not appear at all — the stripped key
is further layer-renamed to `transformer.layers.0.mlp.weight`. -/
theorem c2_counterexample :
    (model_to_trtllm_ckpt exSrc4 "gptj" "bfloat16" 2 2 2 false none none).map
        (fun r => r.1.map (fun m =>
          (containsKey m "transformer.layers.1.mlp.weight.1.bin",
           containsKey m "transformer.layers.1.mlp.weight")))
      = some [(true, false), (false, true), (false, false), (false, false)] ∧
    tp_rank_of 0 2 = 0 ∧ tp_rank_of 3 2 = 1 ∧
    pyEndsWith "transformer.layers.1.mlp.weight.1.bin" (toString 1 ++ ".bin") = true := by
  exact ⟨rfl, rfl, rfl, rfl⟩

/-- Witness for the amended claim C2 at a concrete input: on rank 1 of the
`exSrc4` run (tp rank 1, layer range `[0,1)`), the suffix-stripped key
appears in that rank's output. -/
theorem c2_tp_suffix_selection_witness :
    containsKey
      [("transformer.layers.1.mlp.weight", NpArr.vec [7]),
       ("transformer.vocab_embedding.weight", NpArr.nd [NpArr.vec [3], NpArr.vec [4]])]
      (falconStep (runNda "gptj" 2) "transformer.layers.1.mlp.weight") = true :=
  (c2_tp_suffix_selection exSrc4 "gptj" "bfloat16" 2 2 2 false none none
    exWs4 exCfgs4 exSrc4_run 1 (by decide)
    [("transformer.layers.1.mlp.weight", NpArr.vec [7]),
     ("transformer.vocab_embedding.weight", NpArr.nd [NpArr.vec [3], NpArr.vec [4]])]
    rfl
    "transformer.layers.1.mlp.weight.1.bin" (NpArr.vec [7])
    (List.mem_cons_of_mem _ (List.mem_cons_of_mem _ (List.mem_cons_of_mem _
      (List.mem_cons_self _ _))))
    rfl rfl "transformer.layers.1.mlp.weight").1 rfl rfl

/- ### Claim C3 -/

theorem clean_no_reserved (src : WMap) (t s e : Nat) (nda : Bool) (m0 : WMap) (R : String)
    (hclean : cleanSrc src t s e nda = true) (hR : pp_key.contains R = true)
    (h0 : layerPass t s e nda [] src = some m0) :
    containsKey m0 R = false := by
  cases hc : containsKey m0 R with
  | false => rfl
  | true =>
    rcases layerPass_subset t s e nda src [] m0 R h0 hc with hacc | ⟨kv, hmem, hppf, htk⟩
    · exact absurd hacc (by simp [containsKey])
    · unfold cleanSrc at hclean
      have hkv := List.all_eq_true.mp hclean kv hmem
      rw [hppf, htk] at hkv
      simp at hkv
      exact absurd hR (by simp [hkv])

/-- Claim C3: for every target rank of the output of `model_to_trtllm_ckpt`
(on a source mapping whose rewritten keys do not collide with the reserved
`pp_key` names): the vocab-embedding key — and, when present in the source,
the position-embedding key — is in the rank's weight mapping iff the rank's
pp rank is 0; the lm_head key and the final-layernorm weight key — plus the
final-layernorm bias key when present in the source — are in the rank's
weight mapping iff the rank's pp rank is `pp_size - 1`; and when
`pp_size = 1` every rank receives both weight sets. -/
theorem c3_first_last_rank_exclusivity
    (src : WMap) (decoder dtype : String) (nl tp pp : Nat) (u : Bool)
    (pe : Option String) (ro : Option Int) (ws : List WMap) (cfgs : List RankedConfig)
    (hrun : model_to_trtllm_ckpt src decoder dtype nl tp pp u pe ro = some (ws, cfgs))
    (i : Nat) (hi : i < tp * pp) (w : WMap) (hw : ws.get? i = some w)
    (hclean : cleanSrc src (tp_rank_of i tp) (layers_start i tp pp nl)
      (layers_stop i tp pp nl) (runNda decoder nl) = true) :
    (containsKey w "transformer.vocab_embedding.weight" = true ↔ pp_rank_of i tp = 0) ∧
    (∀ pe2, dget src "transformer.position_embedding.weight" = some pe2 →
      (containsKey w "transformer.position_embedding.weight" = true ↔ pp_rank_of i tp = 0)) ∧
    (containsKey w "lm_head.weight" = true ↔ pp_rank_of i tp = pp - 1) ∧
    (containsKey w "transformer.ln_f.weight" = true ↔ pp_rank_of i tp = pp - 1) ∧
    (∀ b, dget src "transformer.ln_f.bias" = some b →
      (containsKey w "transformer.ln_f.bias" = true ↔ pp_rank_of i tp = pp - 1)) ∧
    (pp = 1 → containsKey w "transformer.vocab_embedding.weight" = true ∧
      containsKey w "lm_head.weight" = true ∧
      containsKey w "transformer.ln_f.weight" = true) := by
  rcases run_shape src decoder dtype nl tp pp u pe ro ws cfgs hrun with
    ⟨ve, lmP, cfg, hve, hlm, hcfg, hws, hcfgs⟩
  rcases run_rank src lmP tp pp nl (runNda decoder nl) u ws i hi hws with ⟨w2, hw2, hrw⟩
  rw [hw] at hw2
  obtain rfl : w = w2 := by simpa using hw2
  rcases rankWeights_parts src lmP tp pp nl (runNda decoder nl) u i w hrw with
    ⟨m0, m1, h0, h1, h2⟩
  have hres : ∀ R, pp_key.contains R = true → containsKey m0 R = false :=
    fun R hR => clean_no_reserved src _ _ _ _ m0 R hclean hR h0
  have hvocab : containsKey w "transformer.vocab_embedding.weight" = true ↔
      pp_rank_of i tp = 0 := by
    cases hfirst : is_first_pp_rank i tp with
    | true =>
      have hm1 := (addFirst_adds src tp (tp_rank_of i tp) u m0 m1 (hfirst ▸ h1)).1
      have hcw := addLast_mono src lmP tp (tp_rank_of i tp) _ m1 w _ h2 hm1
      have hpr : pp_rank_of i tp = 0 := by simpa [is_first_pp_rank] using hfirst
      exact ⟨fun _ => hpr, fun _ => hcw⟩
    | false =>
      have hm1 : m1 = m0 := addFirst_false src tp (tp_rank_of i tp) u m0 m1 (hfirst ▸ h1)
      have hcw : containsKey w "transformer.vocab_embedding.weight" = false := by
        rw [addLast_other src lmP tp (tp_rank_of i tp) (is_last_pp_rank i tp pp) m1 w
          "transformer.vocab_embedding.weight" h2 (by decide) (by decide) (by decide), hm1]
        exact hres _ (by decide)
      have hpr : ¬(pp_rank_of i tp = 0) := by simpa [is_first_pp_rank] using hfirst
      constructor
      · intro hcc; rw [hcw] at hcc; exact absurd hcc (by simp)
      · intro h0p; exact absurd h0p hpr
  have hpos : ∀ pe2, dget src "transformer.position_embedding.weight" = some pe2 →
      (containsKey w "transformer.position_embedding.weight" = true ↔
        pp_rank_of i tp = 0) := by
    intro pe2 hpe2
    cases hfirst : is_first_pp_rank i tp with
    | true =>
      have hm1 := (addFirst_adds src tp (tp_rank_of i tp) u m0 m1 (hfirst ▸ h1)).2 pe2 hpe2
      have hcw := addLast_mono src lmP tp (tp_rank_of i tp) _ m1 w _ h2 hm1
      have hpr : pp_rank_of i tp = 0 := by simpa [is_first_pp_rank] using hfirst
      exact ⟨fun _ => hpr, fun _ => hcw⟩
    | false =>
      have hm1 : m1 = m0 := addFirst_false src tp (tp_rank_of i tp) u m0 m1 (hfirst ▸ h1)
      have hcw : containsKey w "transformer.position_embedding.weight" = false := by
        rw [addLast_other src lmP tp (tp_rank_of i tp) (is_last_pp_rank i tp pp) m1 w
          "transformer.position_embedding.weight" h2 (by decide) (by decide) (by decide), hm1]
        exact hres _ (by decide)
      have hpr : ¬(pp_rank_of i tp = 0) := by simpa [is_first_pp_rank] using hfirst
      constructor
      · intro hcc; rw [hcw] at hcc; exact absurd hcc (by simp)
      · intro h0p; exact absurd h0p hpr
  have hlmh : containsKey w "lm_head.weight" = true ↔ pp_rank_of i tp = pp - 1 := by
    cases hlast : is_last_pp_rank i tp pp with
    | true =>
      have hcw := (addLast_adds src lmP tp (tp_rank_of i tp) m1 w (hlast ▸ h2)).1
      have hpr : pp_rank_of i tp = pp - 1 := by simpa [is_last_pp_rank] using hlast
      exact ⟨fun _ => hpr, fun _ => hcw⟩
    | false =>
      have hww : w = m1 := addLast_false src lmP tp (tp_rank_of i tp) m1 w (hlast ▸ h2)
      have hcw : containsKey w "lm_head.weight" = false := by
        rw [hww, addFirst_other src tp (tp_rank_of i tp) u (is_first_pp_rank i tp) m0 m1
          "lm_head.weight" h1 (by decide) (by decide)]
        exact hres _ (by decide)
      have hpr : ¬(pp_rank_of i tp = pp - 1) := by simpa [is_last_pp_rank] using hlast
      constructor
      · intro hcc; rw [hcw] at hcc; exact absurd hcc (by simp)
      · intro h0p; exact absurd h0p hpr
  have hlnf : containsKey w "transformer.ln_f.weight" = true ↔ pp_rank_of i tp = pp - 1 := by
    cases hlast : is_last_pp_rank i tp pp with
    | true =>
      have hcw := (addLast_adds src lmP tp (tp_rank_of i tp) m1 w (hlast ▸ h2)).2.1
      have hpr : pp_rank_of i tp = pp - 1 := by simpa [is_last_pp_rank] using hlast
      exact ⟨fun _ => hpr, fun _ => hcw⟩
    | false =>
      have hww : w = m1 := addLast_false src lmP tp (tp_rank_of i tp) m1 w (hlast ▸ h2)
      have hcw : containsKey w "transformer.ln_f.weight" = false := by
        rw [hww, addFirst_other src tp (tp_rank_of i tp) u (is_first_pp_rank i tp) m0 m1
          "transformer.ln_f.weight" h1 (by decide) (by decide)]
        exact hres _ (by decide)
      have hpr : ¬(pp_rank_of i tp = pp - 1) := by simpa [is_last_pp_rank] using hlast
      constructor
      · intro hcc; rw [hcw] at hcc; exact absurd hcc (by simp)
      · intro h0p; exact absurd h0p hpr
  have hbias : ∀ b, dget src "transformer.ln_f.bias" = some b →
      (containsKey w "transformer.ln_f.bias" = true ↔ pp_rank_of i tp = pp - 1) := by
    intro b hb
    cases hlast : is_last_pp_rank i tp pp with
    | true =>
      have hcw := (addLast_adds src lmP tp (tp_rank_of i tp) m1 w (hlast ▸ h2)).2.2 b hb
      have hpr : pp_rank_of i tp = pp - 1 := by simpa [is_last_pp_rank] using hlast
      exact ⟨fun _ => hpr, fun _ => hcw⟩
    | false =>
      have hww : w = m1 := addLast_false src lmP tp (tp_rank_of i tp) m1 w (hlast ▸ h2)
      have hcw : containsKey w "transformer.ln_f.bias" = false := by
        rw [hww, addFirst_other src tp (tp_rank_of i tp) u (is_first_pp_rank i tp) m0 m1
          "transformer.ln_f.bias" h1 (by decide) (by decide)]
        exact hres _ (by decide)
      have hpr : ¬(pp_rank_of i tp = pp - 1) := by simpa [is_last_pp_rank] using hlast
      constructor
      · intro hcc; rw [hcw] at hcc; exact absurd hcc (by simp)
      · intro h0p; exact absurd h0p hpr
  refine ⟨hvocab, hpos, hlmh, hlnf, hbias, fun hpp1 => ?_⟩
  subst hpp1
  have hdiv : pp_rank_of i tp = 0 := Nat.div_eq_of_lt (by simpa using hi)
  exact ⟨hvocab.mpr hdiv, hlmh.mpr (by simpa using hdiv), hlnf.mpr (by simpa using hdiv)⟩

/-- Witness for claim C3 at a concrete input: rank 1 of the `exSrc4` run
(tp=2, pp=2) has pp rank 0; it holds the vocab embedding and not the
lm_head / final layernorm. -/
theorem c3_first_last_rank_exclusivity_witness :
    (containsKey (exWs4.headD []) "transformer.vocab_embedding.weight" = true ↔
      pp_rank_of 0 2 = 0) ∧
    (containsKey (exWs4.headD []) "lm_head.weight" = true ↔ pp_rank_of 0 2 = 2 - 1) :=
  have h := c3_first_last_rank_exclusivity exSrc4 "gptj" "bfloat16" 2 2 2 false none none
    exWs4 exCfgs4 exSrc4_run 0 (by decide) (exWs4.headD []) rfl (by decide)
  ⟨h.1, h.2.2.1⟩

/- ### Claims C6 and C7 -/

/-- Sanity run: the falcon conversion of `exSrcF` produces exactly the
fixture outputs. -/
theorem exSrcF_run :
    model_to_trtllm_ckpt exSrcF "falcon" "bfloat16" 60 1 1 false none none
      = some (exWsF, exCfgsF) := rfl

theorem mkConfig_falcon_fields (dtype : String) (nl tp pp vp : Nat) (pe : Option String)
    (u : Bool) (ro : Option Int) (cfg : TrtConfig)
    (h : mkConfig "falcon" dtype nl tp pp vp pe u ro = some cfg) :
    cfg.new_decoder_architecture = some (nl != 32) ∧ cfg.parallel_attention = some true := by
  unfold mkConfig at h
  rw [show DECODER_MODEL_TYPE "falcon" = some "FalconForCausalLM" from rfl] at h
  simp only [Option.some.injEq] at h
  subst h
  exact ⟨rfl, rfl⟩

theorem rank_output_mem
    (src : WMap) (decoder dtype : String) (nl tp pp : Nat) (u : Bool)
    (pe : Option String) (ro : Option Int) (ws : List WMap) (cfgs : List RankedConfig)
    (hrun : model_to_trtllm_ckpt src decoder dtype nl tp pp u pe ro = some (ws, cfgs))
    (i : Nat) (hi : i < tp * pp) (w : WMap) (hw : ws.get? i = some w)
    (k : String) (v : NpArr) (hk : (k, v) ∈ src) (hpp : pp_key.contains k = false)
    (k2 : String)
    (htk : transformKey (tp_rank_of i tp) (layers_start i tp pp nl)
      (layers_stop i tp pp nl) (runNda decoder nl) k = some k2) :
    containsKey w k2 = true := by
  rcases run_shape src decoder dtype nl tp pp u pe ro ws cfgs hrun with
    ⟨ve, lmP, cfg, hve, hlm, hcfg, hws, hcfgs⟩
  rcases run_rank src lmP tp pp nl (runNda decoder nl) u ws i hi hws with ⟨w2, hw2, hrw⟩
  rw [hw] at hw2
  obtain rfl : w = w2 := by simpa using hw2
  rcases rankWeights_parts src lmP tp pp nl (runNda decoder nl) u i w hrw with
    ⟨m0, m1, h0, h1, h2⟩
  have hm0 := layerPass_mem _ _ _ _ src [] m0 k v _ h0 hk hpp htk
  exact addLast_mono _ _ _ _ _ _ _ _ h2 (addFirst_mono _ _ _ _ _ _ _ _ h1 hm0)

/-- Claim C6: when `decoder_type` is `"falcon"`, the synthesized config sets
`new_decoder_architecture` to false iff the source layer count equals 32
(so e.g. 60 layers give true) and sets `parallel_attention` to true; and
exactly when `new_decoder_architecture` is true, every weight key containing
`post_layernorm` (after the earlier rewriting steps) is renamed to use
`mlp_layernorm` in every rank's output weight mapping, while with 32 layers
the key is kept unrenamed. -/
theorem c6_falcon_heuristic
    (src : WMap) (dtype : String) (nl tp pp : Nat) (u : Bool)
    (pe : Option String) (ro : Option Int) (ws : List WMap) (cfgs : List RankedConfig)
    (hrun : model_to_trtllm_ckpt src "falcon" dtype nl tp pp u pe ro = some (ws, cfgs)) :
    (∀ rc ∈ cfgs, rc.base.new_decoder_architecture = some (nl != 32) ∧
      rc.base.parallel_attention = some true) ∧
    (∀ i, i < tp * pp → ∀ w, ws.get? i = some w →
      ∀ k v, (k, v) ∈ src → pp_key.contains k = false →
      ∀ k2, layerStep (layers_start i tp pp nl) (layers_stop i tp pp nl)
          (tpStep (tp_rank_of i tp) k) = some k2 →
        pyContains k2 "post_layernorm" = true →
        (nl ≠ 32 → containsKey w (pyReplace k2 "post_layernorm" "mlp_layernorm") = true) ∧
        (nl = 32 → containsKey w k2 = true)) := by
  rcases run_shape src "falcon" dtype nl tp pp u pe ro ws cfgs hrun with
    ⟨ve, lmP, cfg, hve, hlm, hcfg, hws, hcfgs⟩
  constructor
  · intro rc hrc
    rw [hcfgs] at hrc
    rcases List.mem_map.mp hrc with ⟨j, hj, rfl⟩
    exact mkConfig_falcon_fields dtype nl tp pp _ pe u ro cfg hcfg
  · intro i hi w hw k v hk hpp k2 hls hpost
    constructor
    · intro hne
      have hnda : runNda "falcon" nl = true := by
        unfold runNda
        simp [hne]
      have htk : transformKey (tp_rank_of i tp) (layers_start i tp pp nl)
          (layers_stop i tp pp nl) (runNda "falcon" nl) k
          = some (pyReplace k2 "post_layernorm" "mlp_layernorm") := by
        unfold transformKey
        rw [hls]
        simp only [Option.map]
        unfold falconStep
        rw [hnda, hpost]
        simp
      exact rank_output_mem src "falcon" dtype nl tp pp u pe ro ws cfgs hrun i hi w hw
        k v hk hpp _ htk
    · intro h32
      have hnda : runNda "falcon" nl = false := by
        unfold runNda
        simp [h32]
      have htk : transformKey (tp_rank_of i tp) (layers_start i tp pp nl)
          (layers_stop i tp pp nl) (runNda "falcon" nl) k = some k2 := by
        unfold transformKey
        rw [hls]
        simp only [Option.map]
        unfold falconStep
        rw [hnda]
        simp
      exact rank_output_mem src "falcon" dtype nl tp pp u pe ro ws cfgs hrun i hi w hw
        k v hk hpp _ htk

/-- Witness for claim C6 at a concrete input: the falcon run on `exSrcF`
(num_layers = 60) renames the `post_layernorm` key of rank 0 and its config
carries `new_decoder_architecture = some true`, `parallel_attention = some
true`. -/
theorem c6_falcon_heuristic_witness :
    (exCfgsF.headD { base := exCfgF, rank := 0, tp_rank := 0, pp_rank := 0 }).base.new_decoder_architecture
        = some (60 != 32) ∧
    containsKey (exWsF.headD [])
      (pyReplace "transformer.layers.0.post_layernorm.weight"
        "post_layernorm" "mlp_layernorm") = true :=
  have h := c6_falcon_heuristic exSrcF "bfloat16" 60 1 1 false none none
    exWsF exCfgsF exSrcF_run
  ⟨(h.1 (exCfgsF.headD { base := exCfgF, rank := 0, tp_rank := 0, pp_rank := 0 })
      (by simp [exCfgsF])).1,
   (h.2 0 (by decide) (exWsF.headD []) rfl
      "transformer.layers.0.post_layernorm.weight" (NpArr.vec [9])
      (List.mem_cons_of_mem _ (List.mem_cons_of_mem _ (List.mem_cons_of_mem _
        (List.mem_cons_self _ _))))
      rfl "transformer.layers.0.post_layernorm.weight" rfl rfl).1 (by decide)⟩

/-- Claim C7: for every decoder_type outside `{gptj, gptnext, llama, gemma,
falcon}`, the `DECODER_MODEL_TYPE` lookup misses (`KeyError`, modelled as
`none`) and `model_to_trtllm_ckpt` fails with no partial output; for every
decoder_type in that set, the lookup yields the fixed architecture value and
every per-rank config of a successful run carries it in its `architecture`
field. -/
theorem c7_decoder_enumeration :
    (∀ d : String, d ∉ ["gptj", "gptnext", "llama", "gemma", "falcon"] →
      DECODER_MODEL_TYPE d = none ∧
      ∀ (src : WMap) (dtype : String) (nl tp pp : Nat) (u : Bool)
        (pe : Option String) (ro : Option Int),
        model_to_trtllm_ckpt src d dtype nl tp pp u pe ro = none) ∧
    (∀ d arch, (d, arch) ∈ [("gptj", "GPTForCausalLM"), ("gptnext", "GPTForCausalLM"),
        ("llama", "LLaMAForCausalLM"), ("gemma", "GemmaForCausalLM"),
        ("falcon", "FalconForCausalLM")] →
      DECODER_MODEL_TYPE d = some arch ∧
      ∀ (src : WMap) (dtype : String) (nl tp pp : Nat) (u : Bool)
        (pe : Option String) (ro : Option Int) (ws : List WMap) (cfgs : List RankedConfig),
        model_to_trtllm_ckpt src d dtype nl tp pp u pe ro = some (ws, cfgs) →
        ∀ rc ∈ cfgs, rc.base.architecture = arch) := by
  constructor
  · intro d hd
    simp only [List.mem_cons, List.not_mem_nil, or_false, not_or] at hd
    obtain ⟨h1, h2, h3, h4, h5⟩ := hd
    have hD : DECODER_MODEL_TYPE d = none := by
      unfold DECODER_MODEL_TYPE
      rw [if_neg (bool_ne_true (beq_eq_false_iff_ne.mpr h1)),
        if_neg (bool_ne_true (beq_eq_false_iff_ne.mpr h2)),
        if_neg (bool_ne_true (beq_eq_false_iff_ne.mpr h3)),
        if_neg (bool_ne_true (beq_eq_false_iff_ne.mpr h4)),
        if_neg (bool_ne_true (beq_eq_false_iff_ne.mpr h5))]
    refine ⟨hD, ?_⟩
    intro src dtype nl tp pp u pe ro
    unfold model_to_trtllm_ckpt
    cases hve : dget src "transformer.vocab_embedding.weight" with
    | none => rfl
    | some ve =>
      cases hlm : lmHeadForResharding src tp with
      | none => rfl
      | some lmP =>
        have hmk : mkConfig d dtype nl tp pp (pad_vocab_size (rows0 ve) tp) pe u ro
            = none := by
          unfold mkConfig
          rw [hD]
        simp [hmk]
  · intro d arch hmem
    simp only [List.mem_cons, List.not_mem_nil, or_false, Prod.mk.injEq] at hmem
    have harch : ∀ (src : WMap) (dtype : String) (nl tp pp : Nat) (u : Bool)
        (pe : Option String) (ro : Option Int) (ws : List WMap) (cfgs : List RankedConfig),
        model_to_trtllm_ckpt src d dtype nl tp pp u pe ro = some (ws, cfgs) →
        ∀ rc ∈ cfgs, rc.base.architecture = arch := by
      intro src dtype nl tp pp u pe ro ws cfgs hrun rc hrc
      rcases run_shape src d dtype nl tp pp u pe ro ws cfgs hrun with
        ⟨ve, lmP, cfg, hve, hlm, hcfg, hws, hcfgs⟩
      have hDa := mkConfig_arch d dtype nl tp pp _ pe u ro cfg hcfg
      rw [hcfgs] at hrc
      rcases List.mem_map.mp hrc with ⟨j, hj, rfl⟩
      rcases hmem with ⟨rfl, rfl⟩ | ⟨rfl, rfl⟩ | ⟨rfl, rfl⟩ | ⟨rfl, rfl⟩ | ⟨rfl, rfl⟩
      · exact (Option.some.inj ((rfl :
          DECODER_MODEL_TYPE "gptj" = some "GPTForCausalLM").symm.trans hDa)).symm
      · exact (Option.some.inj ((rfl :
          DECODER_MODEL_TYPE "gptnext" = some "GPTForCausalLM").symm.trans hDa)).symm
      · exact (Option.some.inj ((rfl :
          DECODER_MODEL_TYPE "llama" = some "LLaMAForCausalLM").symm.trans hDa)).symm
      · exact (Option.some.inj ((rfl :
          DECODER_MODEL_TYPE "gemma" = some "GemmaForCausalLM").symm.trans hDa)).symm
      · exact (Option.some.inj ((rfl :
          DECODER_MODEL_TYPE "falcon" = some "FalconForCausalLM").symm.trans hDa)).symm
    rcases hmem with ⟨rfl, rfl⟩ | ⟨rfl, rfl⟩ | ⟨rfl, rfl⟩ | ⟨rfl, rfl⟩ | ⟨rfl, rfl⟩ <;>
      exact ⟨rfl, harch⟩

/-- Witness for claim C7 at concrete inputs: the unknown decoder tag
`"opt"` misses the lookup table and the whole conversion fails with no
output, while `"llama"` resolves to its fixed architecture value. -/
theorem c7_decoder_enumeration_witness :
    DECODER_MODEL_TYPE "opt" = none ∧
    model_to_trtllm_ckpt exSrc4 "opt" "bfloat16" 2 2 2 false none none = none ∧
    DECODER_MODEL_TYPE "llama" = some "LLaMAForCausalLM" :=
  have h := c7_decoder_enumeration
  ⟨(h.1 "opt" (by decide)).1,
   (h.1 "opt" (by decide)).2 exSrc4 "bfloat16" 2 2 2 false none none,
   (h.2 "llama" "LLaMAForCausalLM" (by decide)).1⟩

/- ### Claim C4 -/

theorem get?_replicate {A : Type} (a : A) :
    ∀ (m idx : Nat), idx < m → (List.replicate m a).get? idx = some a := by
  intro m
  induction m with
  | zero => intro idx h; exact absurd h (by simp)
  | succ n ih =>
    intro idx h
    cases idx with
    | zero => rfl
    | succ j => exact ih j (Nat.lt_of_succ_lt_succ h)

/-- Claim C4: whenever `pad_vocab_size` strictly grows the vocab-embedding
row count, the lm_head weight used for resharding (a 2-D weight whose row
count matches the vocabulary, as produced by the source converter) has
exactly `vocab_size_padded` rows, its first `vocab_size` rows are unchanged
from the source lm_head weight, and every padded row is exactly zero. -/
theorem c4_lm_head_padding (src : WMap) (tp : Nat) (ve : NpArr) (rowsL : List (List Int))
    (c : Nat)
    (hve : dget src "transformer.vocab_embedding.weight" = some ve)
    (hlm : dget src "lm_head.weight" = some (.nd (rowsL.map NpArr.vec)))
    (hrows : rowsL.length = rows0 ve)
    (hrect : ∀ r ∈ rowsL, r.length = c)
    (hne : rowsL ≠ [])
    (hpad : rows0 ve < pad_vocab_size (rows0 ve) tp) :
    ∃ out, lmHeadForResharding src tp = some (.nd out) ∧
      out.length = pad_vocab_size (rows0 ve) tp ∧
      out.take (rows0 ve) = rowsL.map NpArr.vec ∧
      ∀ j, rows0 ve ≤ j → j < pad_vocab_size (rows0 ve) tp →
        out.get? j = some (.vec (List.replicate c 0)) := by
  obtain ⟨r0, rest, rfl⟩ : ∃ r0 rest, rowsL = r0 :: rest := by
    cases rowsL with
    | nil => exact absurd rfl hne
    | cons a b => exact ⟨a, b, rfl⟩
  have hc0 : r0.length = c := hrect r0 (List.mem_cons_self ..)
  have heq : lmHeadForResharding src tp
      = some (.nd ((r0 :: rest).map NpArr.vec ++
          List.replicate (pad_vocab_size (rows0 ve) tp - rows0 ve)
            (NpArr.vec (List.replicate c 0)))) := by
    unfold lmHeadForResharding
    rw [hlm, hve]
    simp only []
    rw [if_pos (ne_of_gt hpad)]
    unfold padRows
    simp only [List.map]
    rw [hc0]
  refine ⟨(r0 :: rest).map NpArr.vec ++
      List.replicate (pad_vocab_size (rows0 ve) tp - rows0 ve)
        (NpArr.vec (List.replicate c 0)), heq, ?_, ?_, ?_⟩
  · have hlen : ((r0 :: rest).map NpArr.vec).length = rows0 ve := by
      simpa using hrows
    rw [List.length_append, hlen, List.length_replicate]
    exact Nat.add_sub_cancel' (Nat.le_of_lt hpad)
  · have hlen : ((r0 :: rest).map NpArr.vec).length = rows0 ve := by
      simpa using hrows
    rw [← hlen, List.take_left]
  · intro j hj1 hj2
    have hlen : ((r0 :: rest).map NpArr.vec).length = rows0 ve := by
      simpa using hrows
    rw [List.get?_append_right (by rw [hlen]; exact hj1), hlen]
    exact get?_replicate _ _ _ (by omega)

/-- Witness for claim C4 at a concrete input: a 3-row lm_head with tp=2 is
padded to 4 rows. -/
theorem c4_lm_head_padding_witness :
    (lmHeadForResharding
      [("lm_head.weight", .nd [.vec [1], .vec [2], .vec [3]]),
       ("transformer.vocab_embedding.weight", .nd [.vec [0], .vec [0], .vec [0]])]
      2).isSome = true ∧
    pad_vocab_size 3 2 = 4 := by
  obtain ⟨out, h1, h2, h3, h4⟩ := c4_lm_head_padding
    [("lm_head.weight", .nd [.vec [1], .vec [2], .vec [3]]),
     ("transformer.vocab_embedding.weight", .nd [.vec [0], .vec [0], .vec [0]])]
    2 (.nd [.vec [0], .vec [0], .vec [0]]) [[1], [2], [3]] 1
    rfl rfl rfl (by decide) (by decide) (by decide)
  exact ⟨by rw [h1]; rfl, rfl⟩

/- ### Claim C5: chunk lemmas -/

theorem chunksExact_length {A : Type} :
    ∀ (n s : Nat) (l : List A), (chunksExact n s l).length = n := by
  intro n
  induction n with
  | zero => intro s l; rfl
  | succ m ih => intro s l; simp [chunksExact, ih]

theorem chunksExact_join {A : Type} :
    ∀ (n s : Nat) (l : List A), s * n = l.length → (chunksExact n s l).flatten = l := by
  intro n
  induction n with
  | zero =>
    intro s l h
    have : l = [] := List.length_eq_zero.mp (by omega)
    subst this
    rfl
  | succ m ih =>
    intro s l h
    have hd : (l.drop s).length = s * m := by
      rw [List.length_drop]
      have : s * (m + 1) = s * m + s := Nat.mul_succ s m
      omega
    show (List.take s l :: chunksExact m s (List.drop s l)).flatten = l
    rw [List.join_cons, ih s (l.drop s) hd.symm]
    exact List.take_append_drop s l

theorem chunksExact_mem_length {A : Type} :
    ∀ (n s : Nat) (l : List A), s * n = l.length →
      ∀ c ∈ chunksExact n s l, c.length = s := by
  intro n
  induction n with
  | zero => intro s l _ c hc; simp [chunksExact] at hc
  | succ m ih =>
    intro s l h c hc
    simp only [chunksExact, List.mem_cons] at hc
    rcases hc with rfl | hc
    · rw [List.length_take]
      have : s ≤ l.length := by
        have : s * (m + 1) = s * m + s := Nat.mul_succ s m
        omega
      omega
    · have hd : (l.drop s).length = s * m := by
        rw [List.length_drop]
        have : s * (m + 1) = s * m + s := Nat.mul_succ s m
        omega
      exact ih s (l.drop s) hd.symm c hc

theorem chunkList_spec {A : Type} (l : List A) (n : Nat) (cs : List (List A))
    (h : chunkList l n = some cs) :
    n ≠ 0 ∧ n * (l.length / n) = l.length ∧ cs = chunksExact n (l.length / n) l := by
  unfold chunkList at h
  by_cases h0 : n = 0
  · rw [if_pos h0] at h; exact absurd h (by simp)
  · rw [if_neg h0] at h
    by_cases h1 : n * (l.length / n) = l.length
    · rw [if_pos h1] at h
      simp only [Option.some.injEq] at h
      exact ⟨h0, h1, h.symm⟩
    · rw [if_neg h1] at h; exact absurd h (by simp)

theorem optMapAll_vecChildren (cs : List (List Int)) :
    optMapAll vecChildren (cs.map NpArr.vec) = some cs := by
  induction cs with
  | nil => rfl
  | cons c rest ih => simp [optMapAll, vecChildren, ih]

theorem optMapAll_ndChildren (cs : List (List NpArr)) :
    optMapAll ndChildren (cs.map NpArr.nd) = some cs := by
  induction cs with
  | nil => rfl
  | cons c rest ih => simp [optMapAll, ndChildren, ih]

theorem npConcat_zero_vec (c : List Int) (rest : List (List Int)) :
    npConcat 0 ((c :: rest).map NpArr.vec) = some (.vec ((c :: rest).flatten)) := by
  have h1 : optMapAll vecChildren ((c :: rest).map NpArr.vec) = some (c :: rest) :=
    optMapAll_vecChildren _
  simp only [List.map] at h1 ⊢
  unfold npConcat
  rw [h1]
  rfl

theorem npConcat_zero_nd (c : List NpArr) (rest : List (List NpArr)) :
    npConcat 0 ((c :: rest).map NpArr.nd) = some (.nd ((c :: rest).flatten)) := by
  have h1 : optMapAll ndChildren ((c :: rest).map NpArr.nd) = some (c :: rest) :=
    optMapAll_ndChildren _
  simp only [List.map] at h1 ⊢
  unfold npConcat
  rw [h1]
  rfl

theorem optMapAll_none {A B : Type} (f : A → Option B) :
    ∀ (l : List A), optMapAll f l = none → ∃ x ∈ l, f x = none := by
  intro l
  induction l with
  | nil => intro h; exact absurd h (by simp [optMapAll])
  | cons x rest ih =>
    intro h
    rw [optMapAll] at h
    cases hf : f x with
    | none => exact ⟨x, List.mem_cons_self .., hf⟩
    | some y =>
      rw [hf] at h
      cases hr : optMapAll f rest with
      | none =>
        rcases ih hr with ⟨z, hz1, hz2⟩
        exact ⟨z, List.mem_cons_of_mem _ hz1, hz2⟩
      | some ys => rw [hr] at h; exact absurd h (by simp)

theorem optMapAll_intro {A B : Type} (f : A → Option B) :
    ∀ (l : List A) (ys : List B), ys.length = l.length →
      (∀ i x y, l.get? i = some x → ys.get? i = some y → f x = some y) →
      optMapAll f l = some ys := by
  intro l
  induction l with
  | nil =>
    intro ys hlen _
    have : ys = [] := List.length_eq_zero.mp hlen
    subst this
    rfl
  | cons x rest ih =>
    intro ys hlen hpt
    cases ys with
    | nil => simp at hlen
    | cons y ys0 =>
      have hf : f x = some y := hpt 0 x y rfl rfl
      have hr : optMapAll f rest = some ys0 := by
        refine ih ys0 (by simpa using hlen) ?_
        intro i xi yi hxi hyi
        exact hpt (i + 1) xi yi hxi hyi
      rw [optMapAll, hf, hr]

theorem splitAll_spec :
    ∀ (d : Nat) (v : NpArr) (n : Nat) (parts : List NpArr),
      0 < n → npSplitAll d v n = some parts →
      parts.length = n ∧ npConcat d parts = some v ∧
      ∀ p ∈ parts, axLen p d * n = axLen v d := by
  intro d
  induction d with
  | zero =>
    intro v n parts hn h
    cases v with
    | vec l =>
      rw [npSplitAll] at h
      cases hcl : chunkList l n with
      | none => rw [hcl] at h; exact absurd h (by simp)
      | some cs =>
        rw [hcl] at h
        simp only [Option.map, Option.some.injEq] at h
        obtain ⟨hn0, hdiv, hcs⟩ := chunkList_spec l n cs hcl
        subst hcs
        subst h
        have hsn : (l.length / n) * n = l.length := by
          rw [Nat.mul_comm]; exact hdiv
        refine ⟨by simp [chunksExact_length], ?_, ?_⟩
        · obtain ⟨c, rest, hcc⟩ : ∃ c rest,
              chunksExact n (l.length / n) l = c :: rest := by
            have hlen := chunksExact_length (A := Int) n (l.length / n) l
            cases hcc : chunksExact n (l.length / n) l with
            | nil => rw [hcc] at hlen; simp at hlen; omega
            | cons c rest => exact ⟨c, rest, rfl⟩
          rw [hcc, npConcat_zero_vec, ← hcc, chunksExact_join n (l.length / n) l hsn]
        · intro p hp
          rcases List.mem_map.mp hp with ⟨cch, hcch, rfl⟩
          have hclen : cch.length = l.length / n :=
            chunksExact_mem_length n (l.length / n) l hsn cch hcch
          show cch.length * n = l.length
          rw [hclen]
          exact hsn
    | nd cs =>
      rw [npSplitAll] at h
      cases hcl : chunkList cs n with
      | none => rw [hcl] at h; exact absurd h (by simp)
      | some css =>
        rw [hcl] at h
        simp only [Option.map, Option.some.injEq] at h
        obtain ⟨hn0, hdiv, hcs⟩ := chunkList_spec cs n css hcl
        subst hcs
        subst h
        have hsn : (cs.length / n) * n = cs.length := by
          rw [Nat.mul_comm]; exact hdiv
        refine ⟨by simp [chunksExact_length], ?_, ?_⟩
        · obtain ⟨c, rest, hcc⟩ : ∃ c rest,
              chunksExact n (cs.length / n) cs = c :: rest := by
            have hlen := chunksExact_length (A := NpArr) n (cs.length / n) cs
            cases hcc : chunksExact n (cs.length / n) cs with
            | nil => rw [hcc] at hlen; simp at hlen; omega
            | cons c rest => exact ⟨c, rest, rfl⟩
          rw [hcc, npConcat_zero_nd, ← hcc, chunksExact_join n (cs.length / n) cs hsn]
        · intro p hp
          rcases List.mem_map.mp hp with ⟨cch, hcch, rfl⟩
          have hclen : cch.length = cs.length / n :=
            chunksExact_mem_length n (cs.length / n) cs hsn cch hcch
          have hgoal : cch.length * n = cs.length := by rw [hclen]; exact hsn
          simpa [axLen] using hgoal
  | succ d ih =>
    intro v n parts hn h
    cases v with
    | vec l => rw [npSplitAll] at h; exact absurd h (by simp)
    | nd cs =>
      rw [npSplitAll] at h
      cases hps : optMapAll (fun c => npSplitAll d c n) cs with
      | none => rw [hps] at h; exact absurd h (by simp)
      | some partsCs =>
        rw [hps] at h
        simp only [] at h
        have hplen0 : parts.length = n := by
          have := optMapAll_length _ (List.range n) parts h
          simpa using this
        have hplen : partsCs.length = cs.length := optMapAll_length _ cs partsCs hps
        have hchild : ∀ j cj, cs.get? j = some cj →
            ∃ pj, partsCs.get? j = some pj ∧ npSplitAll d cj n = some pj := by
          intro j cj hj
          exact optMapAll_get _ cs partsCs j cj hps hj
        have hpj_spec : ∀ j cj pj, cs.get? j = some cj → partsCs.get? j = some pj →
            pj.length = n ∧ npConcat d pj = some cj ∧
            ∀ p ∈ pj, axLen p d * n = axLen cj d := by
          intro j cj pj hcj hpj
          rcases hchild j cj hcj with ⟨pj2, hpj2, hsp⟩
          rw [hpj] at hpj2
          obtain rfl : pj = pj2 := by simpa using hpj2
          exact ih cj n pj hn hsp
        have hcol : ∀ i, i < n → ∃ coli, optMapAll (fun p => p.get? i) partsCs = some coli ∧
            parts.get? i = some (.nd coli) ∧ coli.length = partsCs.length := by
          intro i hi
          rcases optMapAll_get _ (List.range n) parts i i h (List.get?_range hi) with
            ⟨y, hy1, hy2⟩
          cases hoc : optMapAll (fun p => p.get? i) partsCs with
          | none => rw [hoc] at hy2; exact absurd hy2 (by simp)
          | some coli =>
            rw [hoc] at hy2
            simp only [Option.map, Option.some.injEq] at hy2
            exact ⟨coli, rfl, by rw [hy1, ← hy2], optMapAll_length _ _ _ hoc⟩
        have hcolentry : ∀ i coli, optMapAll (fun p => p.get? i) partsCs = some coli →
            ∀ j pj, partsCs.get? j = some pj →
            ∃ z, coli.get? j = some z ∧ pj.get? i = some z := by
          intro i coli hoc j pj hpj
          exact optMapAll_get _ partsCs coli j pj hoc hpj
        have hpmem : ∀ p ∈ parts, ∃ i, i < n ∧ parts.get? i = some p := by
          intro p hp
          rcases List.mem_iff_get?.mp hp with ⟨i, hi⟩
          have hlt : i < parts.length := by
            by_contra hge
            rw [List.get?_eq_none.mpr (by omega)] at hi
            exact absurd hi (by simp)
          exact ⟨i, by omega, hi⟩
        refine ⟨hplen0, ?_, ?_⟩
        · obtain ⟨p0, parts', hpc⟩ : ∃ p0 parts', parts = p0 :: parts' := by
            cases parts with
            | nil => simp at hplen0; omega
            | cons a b => exact ⟨a, b, rfl⟩
          cases hnd : optMapAll ndChildren parts with
          | none =>
            rcases optMapAll_none _ parts hnd with ⟨x, hx1, hx2⟩
            rcases hpmem x hx1 with ⟨i, hi, hgi⟩
            rcases hcol i hi with ⟨coli, hoc, hpi, _⟩
            rw [hgi] at hpi
            obtain rfl : x = .nd coli := by simpa using hpi
            simp [ndChildren] at hx2
          | some css =>
            have hcsslen : css.length = n := by
              rw [optMapAll_length _ parts css hnd, hplen0]
            have hcss : ∀ i, i < n → ∃ coli,
                optMapAll (fun p => p.get? i) partsCs = some coli ∧
                css.get? i = some coli ∧ coli.length = partsCs.length := by
              intro i hi
              rcases hcol i hi with ⟨coli, hoc, hpi, hclen⟩
              rcases optMapAll_get _ parts css i _ hnd hpi with ⟨y, hy1, hy2⟩
              simp only [ndChildren, Option.some.injEq] at hy2
              refine ⟨coli, hoc, ?_, hclen⟩
              rw [hy1, hy2]
            have hm : (css.headD []).length = cs.length := by
              rcases hcss 0 hn with ⟨col0, _, hg0, hl0⟩
              cases css with
              | nil => simp at hcsslen; omega
              | cons a b =>
                obtain rfl : a = col0 := by simpa using hg0
                simpa [hplen] using hl0
            have hall : css.all (fun c => c.length = (css.headD []).length) = true := by
              refine List.all_eq_true.mpr ?_
              intro c hc
              rcases List.mem_iff_get?.mp hc with ⟨i, hgi⟩
              have hilt : i < css.length := by
                by_contra hge
                rw [List.get?_eq_none.mpr (by omega)] at hgi
                exact absurd hgi (by simp)
              rcases hcss i (by omega) with ⟨coli, _, hgi2, hclen⟩
              rw [hgi] at hgi2
              obtain rfl : c = coli := by simpa using hgi2
              exact decide_eq_true (by rw [hclen, hplen, hm])
            have hinner : optMapAll (fun j =>
                match optMapAll (fun c => c.get? j) css with
                | none => none
                | some col => npConcat d col) (List.range cs.length) = some cs := by
              refine optMapAll_intro _ (List.range cs.length) cs (by simp) ?_
              intro j x y hx hy
              have hjlt : j < cs.length := by
                by_contra hge
                rw [List.get?_eq_none.mpr (by simpa using (by omega : cs.length ≤ j))] at hx
                exact absurd hx (by simp)
              rw [List.get?_range hjlt] at hx
              have hjx : j = x := by simpa using hx
              subst hjx
              have hpjget : ∃ pj, partsCs.get? j = some pj := by
                have hjp : j < partsCs.length := by omega
                exact ⟨partsCs.get ⟨j, hjp⟩, List.get?_eq_get hjp⟩
              rcases hpjget with ⟨pj, hpjget⟩
              have hspec := hpj_spec j y pj hy hpjget
              have htrans : optMapAll (fun c => c.get? j) css = some pj := by
                refine optMapAll_intro _ css pj (by rw [hspec.1, hcsslen]) ?_
                intro i x2 y2 hx2 hy2
                have hilt : i < css.length := by
                  by_contra hge
                  rw [List.get?_eq_none.mpr (by omega)] at hx2
                  exact absurd hx2 (by simp)
                rcases hcss i (by omega) with ⟨coli, hoc, hgi2, _⟩
                rw [hx2] at hgi2
                obtain rfl : x2 = coli := by simpa using hgi2
                rcases hcolentry i x2 hoc j pj hpjget with ⟨z, hz1, hz2⟩
                rw [hy2] at hz2
                obtain rfl : y2 = z := by simpa using hz2
                exact hz1
              rw [htrans]
              exact hspec.2.1
            rw [hpc] at hnd ⊢
            rw [npConcat, hnd]
            simp only []
            rw [if_pos hall, hm, hinner]
            rfl
        · intro p hp
          rcases hpmem p hp with ⟨i, hi, hgi⟩
          rcases hcol i hi with ⟨coli, hoc, hpi, hclen⟩
          rw [hgi] at hpi
          obtain rfl : p = .nd coli := by simpa using hpi
          cases hcs0 : cs with
          | nil =>
            have hp0 : partsCs = [] := by
              rw [hcs0] at hplen
              exact List.length_eq_zero.mp (by simpa using hplen)
            have hc0 : coli = [] := by
              refine List.length_eq_zero.mp ?_
              rw [hclen, hp0]
              rfl
            subst hc0
            simp [axLen]
          | cons c0 cs2 =>
            have hc0 : cs.get? 0 = some c0 := by rw [hcs0]; rfl
            rcases hchild 0 c0 hc0 with ⟨p0c, hp0c, hsp0⟩
            have hl0 := ih c0 n p0c hn hsp0
            rcases hcolentry i coli hoc 0 p0c hp0c with ⟨z, hz1, hz2⟩
            obtain ⟨z0, colrest, rfl⟩ : ∃ z0 rest2, coli = z0 :: rest2 := by
              cases coli with
              | nil => exact absurd hz1 (by simp)
              | cons a b => exact ⟨a, b, rfl⟩
            have hmem : z0 ∈ p0c := by
              have hzz : z0 = z := by simpa using hz1
              rw [hzz]
              exact List.get?_mem hz2
            simp only [axLen]
            exact hl0.2.2 z0 hmem

/-- Claim C5: for every tensor `v`, dimension `dim` and partition count
`T > 1` such that `np.split` succeeds on the split axis (axis `dim` for a
multi-dimensional `v`, the only axis for a 1-D `v`, which requires `T` to
divide the axis length evenly), the `T` slices `split(v, T, i, dim)` are
exactly the `T` sections, concatenating them along that axis reconstructs
`v`, and every slice has the same (equal) size `axLen v / T` along the
axis. -/
theorem c5_split_partition (v : NpArr) (T dim : Nat) (hT : 1 < T)
    (parts : List NpArr) (h : npSplitAll (effAxis v dim) v T = some parts) :
    parts.length = T ∧
    (∀ i, i < T → split v T i dim = parts.get? i) ∧
    npConcat (effAxis v dim) parts = some v ∧
    (∀ p ∈ parts, axLen p (effAxis v dim) * T = axLen v (effAxis v dim)) := by
  have hspec := splitAll_spec (effAxis v dim) v T parts (by omega) h
  refine ⟨hspec.1, ?_, hspec.2.1, hspec.2.2⟩
  intro i hi
  unfold split
  rw [if_neg (by omega : ¬ T = 1)]
  cases v with
  | vec l =>
    simp only [effAxis] at h
    rw [h]
    rfl
  | nd cs =>
    simp only [effAxis] at h
    rw [h]
    rfl

/-- Witness for claim C5 at a concrete input: a 2-by-2 matrix split in two
along axis 1. -/
theorem c5_split_partition_witness :
    split (.nd [.vec [1, 2], .vec [3, 4]]) 2 0 1
        = some (.nd [.vec [1], .vec [3]]) ∧
    npConcat 1 [.nd [.vec [1], .vec [3]], .nd [.vec [2], .vec [4]]]
        = some (.nd [.vec [1, 2], .vec [3, 4]]) :=
  have h := c5_split_partition (.nd [.vec [1, 2], .vec [3, 4]]) 2 1 (by decide)
    [.nd [.vec [1], .vec [3]], .nd [.vec [2], .vec [4]]] rfl
  ⟨by rw [h.2.1 0 (by decide)]; rfl, h.2.2.1⟩

/- ### Claim C8: word-list encoder lemmas -/

theorem cumsum_length : ∀ (a : Int) (l : List Int), (cumsumFrom a l).length = l.length := by
  intro a l
  induction l generalizing a with
  | nil => rfl
  | cons x rest ih => simp [cumsumFrom, ih]

theorem foldl_max_le_init : ∀ (l : List Nat) (a : Nat), a ≤ l.foldl max a := by
  intro l
  induction l with
  | nil => intro a; exact Nat.le_refl a
  | cons x rest ih =>
    intro a
    exact Nat.le_trans (Nat.le_max_left a x) (ih (max a x))

theorem foldl_max_mem_le : ∀ (l : List Nat) (a x : Nat), x ∈ l → x ≤ l.foldl max a := by
  intro l
  induction l with
  | nil => intro a x hx; exact absurd hx (List.not_mem_nil x)
  | cons y rest ih =>
    intro a x hx
    rcases List.mem_cons.mp hx with rfl | hx
    · exact Nat.le_trans (Nat.le_max_right a x) (foldl_max_le_init rest (max a x))
    · exact ih (max a y) x hx

theorem filter_nonempty_length {A : Type} :
    ∀ (ts : List (List A)), (∀ t ∈ ts, t ≠ []) → ts.length ≤ ts.flatten.length := by
  intro ts
  induction ts with
  | nil => intro _; exact Nat.le_refl 0
  | cons t rest ih =>
    intro hne
    have ht : t ≠ [] := hne t (List.mem_cons_self ..)
    have htl : 1 ≤ t.length := by
      cases t with
      | nil => exact absurd rfl ht
      | cons a b => simp
    have hr := ih (fun t2 ht2 => hne t2 (List.mem_cons_of_mem _ ht2))
    simp only [List.flatten_cons, List.length_append, List.length_cons]
    omega

theorem wordTokenLists_nonempty (encode : String → List Int) (ref : String) (s : String) :
    ∀ t ∈ wordTokenLists encode ref s, t ≠ [] := by
  intro t ht
  have := (List.mem_filter.mp ht).2
  simpa using this

theorem wordFold_spec (encode : String → List Int) (ref : String) :
    ∀ (wordsL : List String) (a b : List Int),
      wordsL.foldl (fun (acc : List Int × List Int) w =>
        let ids := wordTokens encode ref w
        if ids.length = 0 then acc
        else (acc.1 ++ ids, acc.2 ++ [(ids.length : Int)])) (a, b)
      = (a ++ ((wordsL.map (wordTokens encode ref)).filter (fun t => !t.isEmpty)).flatten,
         b ++ ((wordsL.map (wordTokens encode ref)).filter (fun t => !t.isEmpty)).map
           (fun t => (t.length : Int))) := by
  intro wordsL
  induction wordsL with
  | nil => intro a b; simp
  | cons w rest ih =>
    intro a b
    simp only [List.foldl_cons, List.map_cons]
    by_cases hz : (wordTokens encode ref w).length = 0
    · have hempty : (wordTokens encode ref w).isEmpty = true := by
        cases hw : wordTokens encode ref w with
        | nil => rfl
        | cons x xs => rw [hw] at hz; simp at hz
      rw [if_pos hz, List.filter_cons, hempty]
      simpa using ih a b
    · have hempty : (wordTokens encode ref w).isEmpty = false := by
        cases hw : wordTokens encode ref w with
        | nil => rw [hw] at hz; simp at hz
        | cons x xs => rfl
      rw [if_neg hz, ih, List.filter_cons, hempty]
      simp [List.append_assoc]

theorem itemRows_spec (encode : String → List Int) (ref : String) (s : String)
    (rest : List String) :
    itemRows encode ref (s :: rest) = some
      ((wordTokenLists encode ref s).flatten,
       cumsum ((wordTokenLists encode ref s).map (fun t => (t.length : Int)))) := by
  unfold itemRows wordTokenLists
  simp only []
  rw [wordFold_spec]
  simp

theorem itemRows_shape (encode : String → List Int) (ref : String) (item : List String)
    (r : List Int × List Int) (h : itemRows encode ref item = some r) :
    ∃ s rest2, item = s :: rest2 ∧
      r = ((wordTokenLists encode ref s).flatten,
        cumsum ((wordTokenLists encode ref s).map (fun t => (t.length : Int)))) := by
  cases item with
  | nil => exact absurd h (by simp [itemRows])
  | cons s rest2 =>
    rw [itemRows_spec] at h
    exact ⟨s, rest2, rfl, by simpa using h.symm⟩

/-- Claim C8: for every non-empty batch input on which the encoder succeeds,
`to_word_list_format` returns one entry per batch item, each entry a pair of
rows of the common width `pad_to` (the longest flattened id row, at least 1):
row 0 holds the flattened token ids of all words (in order, words whose
prefix-stripped tokenization is empty contributing nothing) padded on the
right with `0`, and row 1 holds the cumulative per-word token counts (again
with zero-token words contributing no offset entry) padded on the right with
the sentinel `-1`. -/
theorem c8_to_word_list_format
    (encode : String → List Int) (ref : String) (word_dict : List (List String))
    (out : List (List (List Int)))
    (h : to_word_list_format encode ref word_dict = some out) :
    word_dict ≠ [] ∧
    out.length = word_dict.length ∧
    ∃ pad_to, 0 < pad_to ∧
      pad_to = max 1 ((word_dict.map (fun item =>
        (wordTokenLists encode ref (item.headD "")).flatten.length)).foldl max 0) ∧
      (∀ i item, word_dict.get? i = some item →
        ∃ s rest2, item = s :: rest2 ∧
          (wordTokenLists encode ref s).flatten.length ≤ pad_to ∧
          out.get? i = some
            [(wordTokenLists encode ref s).flatten ++
               List.replicate (pad_to - (wordTokenLists encode ref s).flatten.length) 0,
             cumsum ((wordTokenLists encode ref s).map (fun t => (t.length : Int))) ++
               List.replicate (pad_to - (wordTokenLists encode ref s).length) (-1)]) ∧
      (∀ row2 ∈ out, row2.length = 2 ∧ ∀ r ∈ row2, r.length = pad_to) := by
  unfold to_word_list_format at h
  cases hrows : optMapAll (itemRows encode ref) word_dict with
  | none => rw [hrows] at h; exact absurd h (by simp)
  | some rows =>
    rw [hrows] at h
    cases rows with
    | nil => simp at h
    | cons r0 rrest =>
      simp only [Option.some.injEq] at h
      subst h
      have hlen : (r0 :: rrest).length = word_dict.length :=
        optMapAll_length _ word_dict (r0 :: rrest) hrows
      have hne : word_dict ≠ [] := by
        intro heq
        rw [heq] at hlen
        simp at hlen
      have hmapeq : (r0 :: rrest).map (fun r => r.1.length)
          = word_dict.map (fun item =>
              (wordTokenLists encode ref (item.headD "")).flatten.length) := by
        apply List.ext_get?
        intro n
        rw [List.get?_map, List.get?_map]
        cases hwn : word_dict.get? n with
        | none =>
          have hrn : (r0 :: rrest).get? n = none := by
            rw [List.get?_eq_none] at hwn ⊢
            omega
          rw [hrn]
          rfl
        | some item =>
          rcases optMapAll_get _ word_dict (r0 :: rrest) n item hrows hwn with ⟨ri, hri1, hri2⟩
          rcases itemRows_shape encode ref item ri hri2 with ⟨s, rest2, hitem, hr⟩
          rw [hri1, hitem, hr]
          rfl
      have hpadle : ∀ ri, ri ∈ (r0 :: rrest) →
          ri.1.length ≤ max 1 (((r0 :: rrest).map (fun r => r.1.length)).foldl max 0) := by
        intro ri hri
        refine Nat.le_trans (foldl_max_mem_le _ 0 _ ?_) (Nat.le_max_right 1 _)
        exact List.mem_map_of_mem _ hri
      have hitems : ∀ i item, word_dict.get? i = some item →
          ∃ s rest2, item = s :: rest2 ∧
            (wordTokenLists encode ref s).flatten.length ≤
              max 1 (((r0 :: rrest).map (fun r => r.1.length)).foldl max 0) ∧
            (List.map (fun r =>
              [r.1 ++ List.replicate
                  (max 1 (((r0 :: rrest).map (fun r => r.1.length)).foldl max 0) - r.1.length) 0,
               r.2 ++ List.replicate
                  (max 1 (((r0 :: rrest).map (fun r => r.1.length)).foldl max 0) - r.2.length)
                  (-1)]) (r0 :: rrest)).get? i = some
              [(wordTokenLists encode ref s).flatten ++
                 List.replicate
                   (max 1 (((r0 :: rrest).map (fun r => r.1.length)).foldl max 0) -
                     (wordTokenLists encode ref s).flatten.length) 0,
               cumsum ((wordTokenLists encode ref s).map (fun t => (t.length : Int))) ++
                 List.replicate
                   (max 1 (((r0 :: rrest).map (fun r => r.1.length)).foldl max 0) -
                     (wordTokenLists encode ref s).length) (-1)] := by
        intro i item hwi
        rcases optMapAll_get _ word_dict (r0 :: rrest) i item hrows hwi with ⟨ri, hri1, hri2⟩
        rcases itemRows_shape encode ref item ri hri2 with ⟨s, rest2, hitem, hreq⟩
        refine ⟨s, rest2, hitem, ?_, ?_⟩
        · have := hpadle ri (List.get?_mem hri1)
          rw [hreq] at this
          exact this
        · rw [List.get?_map, hri1]
          simp only [Option.map]
          rw [hreq]
          have hc2 : (cumsum ((wordTokenLists encode ref s).map
              (fun t => (t.length : Int)))).length = (wordTokenLists encode ref s).length := by
            unfold cumsum
            rw [cumsum_length, List.length_map]
          rw [hc2]
      have hshape : ∀ row2 ∈ (List.map (fun r =>
            [r.1 ++ List.replicate
                (max 1 (((r0 :: rrest).map (fun r => r.1.length)).foldl max 0) - r.1.length) 0,
             r.2 ++ List.replicate
                (max 1 (((r0 :: rrest).map (fun r => r.1.length)).foldl max 0) - r.2.length)
                (-1)]) (r0 :: rrest)),
          row2.length = 2 ∧ ∀ r ∈ row2,
            r.length = max 1 (((r0 :: rrest).map (fun r => r.1.length)).foldl max 0) := by
        intro row2 hrow
        rcases List.mem_map.mp hrow with ⟨ri, hri, rfl⟩
        rcases optMapAll_mem _ word_dict (r0 :: rrest) ri hrows hri with ⟨item, hitem, hir⟩
        rcases itemRows_shape encode ref item ri hir with ⟨s, rest2, -, hreq⟩
        have h1le := hpadle ri hri
        have h2le : ri.2.length ≤ ri.1.length := by
          rw [hreq]
          have hcl : (cumsum ((wordTokenLists encode ref s).map
              (fun t => (t.length : Int)))).length = (wordTokenLists encode ref s).length := by
            unfold cumsum
            rw [cumsum_length, List.length_map]
          rw [hcl]
          exact filter_nonempty_length _ (wordTokenLists_nonempty encode ref s)
        refine ⟨rfl, ?_⟩
        intro r hr
        rcases List.mem_cons.mp hr with rfl | hr2
        · rw [List.length_append, List.length_replicate]
          omega
        · rcases List.mem_cons.mp hr2 with rfl | hr3
          · rw [List.length_append, List.length_replicate]
            omega
          · exact absurd hr3 (List.not_mem_nil _)
      refine ⟨hne, by simpa using hlen,
        max 1 (((r0 :: rrest).map (fun r => r.1.length)).foldl max 0),
        Nat.lt_of_lt_of_le (by decide) (Nat.le_max_left 1 _), by rw [hmapeq], hitems, hshape⟩

/-- Witness for claim C8 at a concrete input: one batch item `"ab,c"` with a
character-code tokenizer and reference prefix `"#"` yields the stacked rows
`[97, 98, 99]` and `[2, 3, -1]` of width 3. -/
theorem c8_to_word_list_format_witness :
    ([[[(97 : Int), 98, 99], [2, 3, -1]]] : List (List (List Int))).length
        = ([["ab,c"]] : List (List String)).length ∧
    [["ab,c"]] ≠ ([] : List (List String)) :=
  have h := c8_to_word_list_format (fun s => s.data.map (fun c => (c.toNat : Int)))
    "#" [["ab,c"]] [[[97, 98, 99], [2, 3, -1]]] rfl
  ⟨h.2.1, h.1⟩

/- ### Claims C9 and C10 -/

theorem filterMap_length_eq_filter {A B : Type} (f : A → Option B) :
    ∀ (l : List A), (l.filterMap f).length = (l.filter (fun x => (f x).isSome)).length := by
  intro l
  induction l with
  | nil => rfl
  | cons x rest ih =>
    cases hf : f x with
    | none => simp [List.filterMap_cons, List.filter_cons, hf, ih]
    | some y => simp [List.filterMap_cons, List.filter_cons, hf, ih]

/-- Claim C9: with task templates present, `prompt_convert` returns the stack
of one embedding table per collected task, each table padded at the bottom
with zero rows up to the longest collected table's row count, with its
original rows unchanged; without task templates it returns the supplied
combined embedding-weights tensor unchanged. -/
theorem c9_prompt_convert :
    (∀ (ts : List String) (pt : PyDict (List (List Int))) (comb : Option NpArr) (out : NpArr),
      prompt_convert (some ts) pt comb = some out →
      ∃ paddedL : List (List (List Int)),
        out = .nd (paddedL.map (fun tbl => NpArr.nd (tbl.map NpArr.vec))) ∧
        paddedL.length = (ts.filterMap (fun name => dget pt (prompt_table_key name))).length ∧
        ∀ j tbl, (ts.filterMap (fun name => dget pt (prompt_table_key name))).get? j
            = some tbl →
          ∃ q : List (List Int), paddedL.get? j = some q ∧
            q.length = (((ts.filterMap (fun name => dget pt (prompt_table_key name))).map
              List.length).foldl max 0) ∧
            q.take tbl.length = tbl ∧
            ∀ r ∈ q.drop tbl.length,
              r = List.replicate
                (((ts.filterMap (fun name =>
                    dget pt (prompt_table_key name))).headD []).headD []).length 0) ∧
    (∀ (pt : PyDict (List (List Int))) (c : NpArr),
      prompt_convert none pt (some c) = some c) := by
  constructor
  · intro ts pt comb out h
    unfold prompt_convert at h
    simp only [] at h
    cases hf : ts.filterMap (fun name => dget pt (prompt_table_key name)) with
    | nil => rw [hf] at h; exact absurd h (by simp)
    | cons t0 rest =>
      rw [hf] at h
      simp only [] at h
      cases hpad : optMapAll
          (padTaskTable (((t0 :: rest).map List.length).foldl max 0) (t0.headD []).length)
          (t0 :: rest) with
      | none => rw [hpad] at h; exact absurd h (by simp)
      | some paddedL =>
        rw [hpad] at h
        simp only [Option.some.injEq] at h
        refine ⟨paddedL, h.symm, ?_, ?_⟩
        · rw [optMapAll_length _ _ _ hpad]
        · intro j tbl hj
          rcases optMapAll_get _ (t0 :: rest) paddedL j tbl hpad hj with ⟨q, hq1, hq2⟩
          unfold padTaskTable at hq2
          by_cases hall : (tbl.all (fun r => r.length = (t0.headD []).length)) = true
          · rw [if_pos hall] at hq2
            simp only [Option.some.injEq] at hq2
            subst hq2
            have hle : tbl.length ≤ ((t0 :: rest).map List.length).foldl max 0 := by
              refine foldl_max_mem_le _ 0 _ ?_
              exact List.mem_map_of_mem _ (List.get?_mem hj)
            refine ⟨_, hq1, ?_, ?_, ?_⟩
            · rw [List.length_append, List.length_replicate]
              omega
            · exact List.take_left ..
            · intro r hr
              rw [List.drop_left] at hr
              exact List.eq_of_mem_replicate hr
          · rw [if_neg hall] at hq2
            exact absurd hq2 (by simp)
  · intro pt c
    rfl

/-- Claim C10: in the task-template branch of `prompt_convert` a declared
task whose embedding-weight entry is absent from the prompt-table weights is
silently skipped: the stacked output's task dimension equals the number of
declared tasks whose weights were found (in template order), not the number
of declared task templates. -/
theorem c10_missing_tasks_skipped
    (ts : List String) (pt : PyDict (List (List Int))) (comb : Option NpArr) (out : NpArr)
    (h : prompt_convert (some ts) pt comb = some out) :
    ∃ paddedL : List (List (List Int)),
      out = .nd (paddedL.map (fun tbl => NpArr.nd (tbl.map NpArr.vec))) ∧
      paddedL.length
        = (ts.filter (fun name => (dget pt (prompt_table_key name)).isSome)).length ∧
      paddedL.length
        = (ts.filterMap (fun name => dget pt (prompt_table_key name))).length := by
  unfold prompt_convert at h
  simp only [] at h
  cases hf : ts.filterMap (fun name => dget pt (prompt_table_key name)) with
  | nil => rw [hf] at h; exact absurd h (by simp)
  | cons t0 rest =>
    rw [hf] at h
    simp only [] at h
    cases hpad : optMapAll
        (padTaskTable (((t0 :: rest).map List.length).foldl max 0) (t0.headD []).length)
        (t0 :: rest) with
    | none => rw [hpad] at h; exact absurd h (by simp)
    | some paddedL =>
      rw [hpad] at h
      simp only [Option.some.injEq] at h
      have hlen : paddedL.length = (t0 :: rest).length := optMapAll_length _ _ _ hpad
      refine ⟨paddedL, h.symm, ?_, by rw [hlen]⟩
      rw [hlen, ← hf, filterMap_length_eq_filter]

/-- Witness for claim C9 at concrete inputs: the no-template branch passes
the combined tensor through unchanged, and with one declared task whose
2-by-2 table is present the stacked output has exactly one task entry. -/
theorem c9_prompt_convert_witness :
    prompt_convert none [("prompt_table.a.prompt_embeddings.weight", [[(1 : Int), 2]])]
        (some (.vec [7])) = some (.vec [7]) ∧
    ((["a"].filterMap (fun name =>
        dget [("prompt_table.a.prompt_embeddings.weight", [[(1 : Int), 2], [3, 4]])]
          (prompt_table_key name))).length) = 1 := by
  have h := c9_prompt_convert
  refine ⟨h.2 _ _, ?_⟩
  have hA := h.1 ["a"] [("prompt_table.a.prompt_embeddings.weight", [[(1 : Int), 2], [3, 4]])]
    none (.nd [NpArr.nd [NpArr.vec [1, 2], NpArr.vec [3, 4]]]) rfl
  obtain ⟨pl, h1, h2, h3⟩ := hA
  have hc := congrArg rows0 h1
  simp only [rows0, List.length_map] at hc
  rw [← h2]
  simpa using hc.symm

/-- Witness for claim C10 at a concrete input: two declared tasks, only
`"b"` has weights; the stacked output's task dimension is 1, not 2. -/
theorem c10_missing_tasks_skipped_witness :
    ((["a", "b"].filter (fun name =>
        (dget [("prompt_table.b.prompt_embeddings.weight", [[(5 : Int)]])]
          (prompt_table_key name)).isSome)).length) = 1 ∧
    (["a", "b"] : List String).length = 2 := by
  have h := c10_missing_tasks_skipped ["a", "b"]
    [("prompt_table.b.prompt_embeddings.weight", [[(5 : Int)]])] none
    (.nd [NpArr.nd [NpArr.vec [5]]]) rfl
  obtain ⟨pl, h1, h2, h3⟩ := h
  have hc := congrArg rows0 h1
  simp only [rows0, List.length_map] at hc
  refine ⟨?_, rfl⟩
  rw [← h2]
  simpa using hc.symm
